import Mathlib

/-!
Shallow embedding of src/explorador.py, the lexical scanner (Explorador) of the
C-rvicio Militar language.  The scanner is driven by a master regular
expression that is an ordered alternation of ten rules (TOKEN_SPEC); Python's
re.finditer scans the text left to right, at each position trying the
alternation branches in table order, and skips characters at which no branch
matches (those skipped characters form the unrecognized gaps that
Explorador.tokenizar detects by comparing match starts against its running
cursor).  Each branch of the alternation is embedded below as a deterministic
match-length function that reproduces the backtracking behaviour of the
corresponding Python pattern at a fixed starting position.
-/

namespace Explorador

/-- Source text is modelled as a list of characters. -/
abbrev Str := List Char

/-- Length of the greedy run of a character class at the head of the input,
as produced by a regex of the shape [class]* at a fixed position. -/
def runLen (p : Char → Bool) : Str → Nat
  | [] => 0
  | c :: cs => if p c then runLen p cs + 1 else 0

/-- The character class of the ESPACIO rule, regex [ \t\f\v\r]. -/
def isEspacioChar (c : Char) : Bool :=
  decide (c ∈ [' ', '\t', '\x0c', '\x0b', '\r'])

/-- The character class [0-9]. -/
def isDigitChar (c : Char) : Bool :=
  decide ('0' ≤ c ∧ c ≤ '9')

/-- The character class [A-Za-z_] starting an IDENT match. -/
def isIdentStart (c : Char) : Bool :=
  decide (('A' ≤ c ∧ c ≤ 'Z') ∨ ('a' ≤ c ∧ c ≤ 'z') ∨ c = '_')

/-- The character class [A-Za-z0-9_] continuing an IDENT match. -/
def isIdentCont (c : Char) : Bool :=
  isIdentStart c || isDigitChar c

/-- Body scan of the COMENT_BLOQ rule, regex (?:[^*]|\*[^/])*\*/ after the
opener.  One iteration of the starred group consumes either a single non-star
character or a star paired with a following non-slash character; the greedy
engine stops exactly when it sits on a star followed by a slash, which then
closes the comment.  Returns the body length including the closing star-slash,
or none when the pattern cannot match. -/
def bloqBody : Str → Option Nat
  | [] => none
  | c :: cs =>
    if c = '*' then
      match cs with
      | [] => none
      | d :: cs' => if d = '/' then some 2 else (bloqBody cs').map (· + 2)
    else (bloqBody cs).map (· + 1)

/-- COMENT_BLOQ rule, regex /\*(?:[^*]|\*[^/])*\*/ . -/
def bloqMatch : Str → Option Nat
  | c :: d :: cs => if c = '/' ∧ d = '*' then (bloqBody cs).map (· + 2) else none
  | _ => none

/-- Length of [^\n]*(?:\r?\n)? : everything up to and including the next
newline, or up to the end of the input when no newline follows. -/
def lineaRest : Str → Nat
  | [] => 0
  | c :: cs => if c = '\n' then 1 else lineaRest cs + 1

/-- COMENT_LINEA rule, regex //[^\n]*(?:\r?\n)? . -/
def lineaMatch : Str → Option Nat
  | c :: d :: cs => if c = '/' ∧ d = '/' then some (lineaRest cs + 2) else none
  | _ => none

/-- ESPACIO rule, regex [ \t\f\v\r]+ . -/
def espacioMatch (s : Str) : Option Nat :=
  let n := runLen isEspacioChar s
  if n = 0 then none else some n

/-- Greedy run of (?:\r?\n) units: a unit is a lone newline or a
carriage-return immediately followed by a newline. -/
def nlRun : Str → Nat
  | [] => 0
  | c :: cs =>
    if c = '\n' then nlRun cs + 1
    else if c = '\r' then
      match cs with
      | [] => 0
      | d :: cs' => if d = '\n' then nlRun cs' + 2 else 0
    else 0

/-- NL rule, regex (?:\r?\n)+ . -/
def nlMatch (s : Str) : Option Nat :=
  let n := nlRun s
  if n = 0 then none else some n

/-- Body of the CADENA rule after the opening quote: [^"\n]*" .  Returns the
length consumed including the closing quote, or none when a newline or the end
of the input arrives before a closing quote. -/
def cadenaBody : Str → Option Nat
  | [] => none
  | c :: cs =>
    if c = '"' then some 1
    else if c = '\n' then none
    else (cadenaBody cs).map (· + 1)

/-- CADENA rule, regex "[^"\n]*" . -/
def cadenaMatch : Str → Option Nat
  | [] => none
  | c :: cs => if c = '"' then (cadenaBody cs).map (· + 1) else none

/-- NUM_FLOTANTE rule, regex [0-9]+\.[0-9]+ . -/
def flotMatch (s : Str) : Option Nat :=
  let d1 := runLen isDigitChar s
  if d1 = 0 then none
  else
    match s.drop d1 with
    | '.' :: rest =>
      let d2 := runLen isDigitChar rest
      if d2 = 0 then none else some (d1 + 1 + d2)
    | _ => none

/-- NUM_ENTERO rule, regex [0-9]+ . -/
def entMatch (s : Str) : Option Nat :=
  let n := runLen isDigitChar s
  if n = 0 then none else some n

/-- The single-character operators of SINGLE_OPS, in table order. -/
def singleOps : List Char := ['=', '+', '-', '*', '/', '%', '<', '>', '!']

/-- The two-character operators of MULTI_OPS.  All of them have length two, so
the order among them is immaterial for the span that the alternation yields. -/
def isMultiOp (c d : Char) : Bool :=
  decide ((c = '|' ∧ d = '|') ∨ (c = '&' ∧ d = '&') ∨
    ((c = '=' ∨ c = '!' ∨ c = '<' ∨ c = '>' ∨ c = '+' ∨ c = '-' ∨
      c = '*' ∨ c = '/' ∨ c = '%') ∧ d = '='))

/-- OPERADOR rule: the MULTI_OPS alternatives are listed before the SINGLE_OPS
alternatives, so at a fixed position a two-character form wins over its
one-character prefix. -/
def opMatch : Str → Option Nat
  | [] => none
  | [c] => if c ∈ singleOps then some 1 else none
  | c :: d :: _ =>
    if isMultiOp c d then some 2
    else if c ∈ singleOps then some 1 else none

/-- The punctuation characters of PUNCT. -/
def punctChars : List Char := ['(', ')', '\x7b', '\x7d', '[', ']', '.', ',', ':']

/-- SIMBOLO rule: a single punctuation character. -/
def simbMatch : Str → Option Nat
  | [] => none
  | c :: _ => if c ∈ punctChars then some 1 else none

/-- IDENT rule, regex [A-Za-z_][A-Za-z0-9_]* . -/
def identMatch : Str → Option Nat
  | [] => none
  | c :: cs => if isIdentStart c then some (runLen isIdentCont cs + 1) else none

/-- The named groups of MASTER_RE, in TOKEN_SPEC order. -/
inductive Cat
  | bloq | linea | espacio | nl | cadena | flot | ent | op | simb | ident
  deriving DecidableEq, Repr

/-- One attempt of MASTER_RE at a fixed position: the branches of the
alternation are tried in TOKEN_SPEC order and the first one that matches
wins, together with the length of its span. -/
def masterMatch (s : Str) : Option (Cat × Nat) :=
  match bloqMatch s with
  | some n => some (Cat.bloq, n)
  | none =>
  match lineaMatch s with
  | some n => some (Cat.linea, n)
  | none =>
  match espacioMatch s with
  | some n => some (Cat.espacio, n)
  | none =>
  match nlMatch s with
  | some n => some (Cat.nl, n)
  | none =>
  match cadenaMatch s with
  | some n => some (Cat.cadena, n)
  | none =>
  match flotMatch s with
  | some n => some (Cat.flot, n)
  | none =>
  match entMatch s with
  | some n => some (Cat.ent, n)
  | none =>
  match opMatch s with
  | some n => some (Cat.op, n)
  | none =>
  match simbMatch s with
  | some n => some (Cat.simb, n)
  | none =>
  match identMatch s with
  | some n => some (Cat.ident, n)
  | none => none

/-- Raw outcome of one scanning step: a match of MASTER_RE, or a single
character at which no branch matches (a character that re.finditer skips). -/
inductive Raw
  | mat (c : Cat) (lex : Str)
  | bad (ch : Char)
  deriving DecidableEq, Repr

/-- The scanning pass of re.finditer: at each position try MASTER_RE; on a
match consume its span, otherwise skip one character.  The fuel argument
bounds the number of iterations; the input length is always enough fuel
because every branch of the alternation consumes at least one character. -/
def scanAux : Nat → Str → List Raw
  | 0, _ => []
  | _, [] => []
  | fuel + 1, ch :: rest =>
    match masterMatch (ch :: rest) with
    | some (c, n) => Raw.mat c ((ch :: rest).take n) :: scanAux fuel ((ch :: rest).drop n)
    | none => Raw.bad ch :: scanAux fuel rest

/-- The complete scan of an input. -/
def scan (s : Str) : List Raw := scanAux s.length s

/-- A segment of the input as Explorador.tokenizar sees it: a match of
MASTER_RE, or a maximal gap of skipped characters (the bad_chunk between the
running cursor pos and the start of the next match). -/
inductive Seg
  | mat (c : Cat) (lex : Str)
  | gap (lex : Str)
  deriving DecidableEq, Repr

/-- Group maximal runs of skipped characters into single gap segments, the
bad_chunk spans of Explorador.tokenizar. -/
def coalesce : List Raw → List Seg
  | [] => []
  | Raw.mat c lex :: rest => Seg.mat c lex :: coalesce rest
  | Raw.bad ch :: rest =>
    match coalesce rest with
    | Seg.gap g :: segs => Seg.gap (ch :: g) :: segs
    | segs => Seg.gap [ch] :: segs

/-- Attribute values stored in a token's atributos mapping. -/
inductive AttrVal
  | nat (n : Nat)
  | str (s : Str)
  deriving DecidableEq, Repr

/-- The Token dataclass: lexema, tipo, atributos. -/
structure Token where
  lexema : Str
  tipo : String
  atributos : List (String × AttrVal)
  deriving DecidableEq, Repr

/-- The outcomes by which Explorador.tokenizar can fail: the ExploradorError
raised on unrecognized input in strict mode (carrying whether the message is
the "al final" variant, the reported fila and columna, and the escaped
excerpt), and the TypeError raised by the Python runtime when Token is
constructed with five positional arguments on the tolerant mid-input path. -/
inductive PyError
  | exploradorError (alFinal : Bool) (fila columna : Nat) (excerpt : Str)
  | typeError
  deriving DecidableEq, Repr

/-- PALABRAS_CLAVE, the reserved keyword set. -/
def palabrasClave : List Str :=
  ["ejercito", "global", "var", "mision", "severidad", "estricto", "advertencia",
   "revisar", "ejecutar", "confirmar",
   "si", "por", "defecto", "estrategia", "atacar", "mientras",
   "retirada", "con", "abortar", "avanzar",
   "afirmativo", "negativo", "nulo",
   "reportar", "recibir", "clasificarNumero", "clasificarMensaje", "azar",
   "aRangoSuperior", "aRangoInferior", "acampar", "calibre", "truncar"].map
    String.toList

/-- Explorador._clasificar: map a raw match category and lexeme to the final
token kind and its kind-specific attributes. -/
def clasificar (tipo : Cat) (lexema : Str) : String × List (String × AttrVal) :=
  match tipo with
  | Cat.ident =>
    if lexema ∈ palabrasClave then ("PALABRA_CLAVE", []) else ("IDENT", [])
  | Cat.ent => ("NUM_ENTERO", [])
  | Cat.flot => ("NUM_FLOTANTE", [])
  | Cat.cadena => ("CADENA", [("valor", AttrVal.str ((lexema.drop 1).dropLast))])
  | Cat.op => ("OPERADOR", [])
  | Cat.simb => ("SIMBOLO", [])
  | Cat.bloq => ("COMENT_BLOQ", [])
  | Cat.linea => ("COMENT_LINEA", [])
  | Cat.espacio => ("ESPACIO", [])
  | Cat.nl => ("NL", [])

/-- The whitespace class of Python's regex \s on str inputs: the six ASCII
whitespace characters together with the Unicode whitespace code points. -/
def isPyWs (c : Char) : Bool :=
  decide (c ∈ [' ', '\t', '\n', '\r', '\x0b', '\x0c',
    '\x1c', '\x1d', '\x1e', '\x1f', '\x85', '\xa0',
    '\u1680', '\u2000', '\u2001', '\u2002', '\u2003', '\u2004', '\u2005',
    '\u2006', '\u2007', '\u2008', '\u2009', '\u200a',
    '\u2028', '\u2029', '\u202f', '\u205f', '\u3000'])

/-- Explorador._consume_desconocido: an unrecognized chunk is benign exactly
when, after removing newlines, every remaining character is whitespace;
re.search of [^\s] on chunk.replace of the newlines finds nothing. -/
def consumeDesconocido (chunk : Str) : Bool :=
  if chunk.isEmpty then true
  else (chunk.filter (fun c => !(c == '\n'))).all isPyWs

/-- bad_chunk[:20].replace of newline by backslash-n, the excerpt shown in an
ExploradorError message. -/
def escapeNl : Str → Str
  | [] => []
  | c :: cs => if c = '\n' then '\\' :: 'n' :: escapeNl cs else c :: escapeNl cs

/-- lexema.count of the newline character. -/
def countNl : Str → Nat
  | [] => 0
  | c :: cs => (if c = '\n' then 1 else 0) + countNl cs

/-- lexema.rfind of the newline character: index of the last newline. -/
def lastNlIdx : Str → Option Nat
  | [] => none
  | c :: cs =>
    match lastNlIdx cs with
    | some k => some (k + 1)
    | none => if c = '\n' then some 0 else none

/-- The loop body of Explorador.tokenizar, processing the segments of the
scan in order while threading the cursor offset pos, the line counter linea,
and the offset lineaIni of the first character of the current line
(linea_inicio in the source).  A gap before a further match is the in-loop
unrecognized-chunk path: benign chunks are skipped; otherwise strict mode
raises ExploradorError and tolerant mode crashes with a TypeError because the
source constructs Token with five positional arguments there.  A trailing gap
is the after-loop path, whose tolerant branch builds the ERROR token
correctly.  NL matches optionally emit a token and update linea and lineaIni;
ESPACIO and comment matches are dropped; every other match is classified and
emitted with fila and columna attributes. -/
def runSegs (conNL tol : Bool) : List Seg → Nat → Nat → Nat → Except PyError (List Token)
  | [], _, _, _ => .ok []
  | Seg.gap g :: rest, pos, linea, lineaIni =>
    if consumeDesconocido g then
      runSegs conNL tol rest (pos + g.length) linea lineaIni
    else
      match rest with
      | [] =>
        if tol then
          .ok [⟨g, "ERROR",
            [("fila", AttrVal.nat linea), ("columna", AttrVal.nat (pos - lineaIni + 1)),
             ("motivo", AttrVal.str ("desconocido".toList))]⟩]
        else .error (PyError.exploradorError true linea (pos - lineaIni + 1) (escapeNl (g.take 20)))
      | _ :: _ =>
        if tol then .error PyError.typeError
        else .error (PyError.exploradorError false linea (pos - lineaIni + 1) (escapeNl (g.take 20)))
  | Seg.mat c lex :: rest, pos, linea, lineaIni =>
    match c with
    | Cat.nl =>
      let tail := runSegs conNL tol rest (pos + lex.length) (linea + countNl lex)
        (match lastNlIdx lex with
         | some k => pos + k + 1
         | none => lineaIni)
      if conNL then
        tail.map (fun ts => ⟨lex, "NL",
          [("fila", AttrVal.nat linea), ("columna", AttrVal.nat (pos - lineaIni + 1))]⟩ :: ts)
      else tail
    | Cat.espacio => runSegs conNL tol rest (pos + lex.length) linea lineaIni
    | Cat.linea => runSegs conNL tol rest (pos + lex.length) linea lineaIni
    | Cat.bloq => runSegs conNL tol rest (pos + lex.length) linea lineaIni
    | _ =>
      (runSegs conNL tol rest (pos + lex.length) linea lineaIni).map
        (fun ts => ⟨lex, (clasificar c lex).1,
          (clasificar c lex).2 ++
            [("fila", AttrVal.nat linea),
             ("columna", AttrVal.nat (pos - lineaIni + 1))]⟩ :: ts)

/-- Explorador.tokenizar: scan the text, group the skipped characters into
gaps, and process the segments starting from offset 0, line 1, line start 0.
The options mirror Explorador.__init__: con_nuevaslineas retains NL tokens,
tolerante downgrades unrecognized input from an error to an ERROR token (on
the only code path that builds that token correctly). -/
def tokenizar (conNuevasLineas tolerante : Bool) (texto : Str) : Except PyError (List Token) :=
  runSegs conNuevasLineas tolerante (coalesce (scan texto)) 0 1 0

end Explorador

namespace Explorador

/-! Basic facts about the matchers: every rule consumes at least one
character, and the scan is independent of the fuel once the fuel reaches the
input length. -/

theorem runLen_le (p : Char → Bool) : ∀ s : Str, runLen p s ≤ s.length := by
  intro s
  induction s with
  | nil => simp [runLen]
  | cons c cs ih =>
    simp only [runLen, List.length_cons]
    split <;> omega

theorem bloqMatch_pos (s : Str) (n : Nat) (h : bloqMatch s = some n) : 1 ≤ n := by
  match s with
  | [] => simp [bloqMatch] at h
  | [c] => simp [bloqMatch] at h
  | c :: d :: cs =>
    simp only [bloqMatch] at h
    split at h
    · cases hb : bloqBody cs with
      | none => rw [hb] at h; simp at h
      | some m => rw [hb] at h; simp at h; omega
    · simp at h

theorem lineaMatch_pos (s : Str) (n : Nat) (h : lineaMatch s = some n) : 1 ≤ n := by
  match s with
  | [] => simp [lineaMatch] at h
  | [c] => simp [lineaMatch] at h
  | c :: d :: cs =>
    simp only [lineaMatch] at h
    split at h
    · simp at h; omega
    · simp at h

theorem espacioMatch_pos (s : Str) (n : Nat) (h : espacioMatch s = some n) : 1 ≤ n := by
  simp only [espacioMatch] at h
  split at h
  · simp at h
  · simp at h; omega

theorem nlMatch_pos (s : Str) (n : Nat) (h : nlMatch s = some n) : 1 ≤ n := by
  simp only [nlMatch] at h
  split at h
  · simp at h
  · simp at h; omega

theorem cadenaMatch_pos (s : Str) (n : Nat) (h : cadenaMatch s = some n) : 1 ≤ n := by
  match s with
  | [] => simp [cadenaMatch] at h
  | c :: cs =>
    simp only [cadenaMatch] at h
    split at h
    · cases hb : cadenaBody cs with
      | none => rw [hb] at h; simp at h
      | some m => rw [hb] at h; simp at h; omega
    · simp at h

theorem flotMatch_pos (s : Str) (n : Nat) (h : flotMatch s = some n) : 1 ≤ n := by
  simp only [flotMatch] at h
  split at h
  · simp at h
  · split at h
    · split at h
      · simp at h
      · simp at h; omega
    · simp at h

theorem entMatch_pos (s : Str) (n : Nat) (h : entMatch s = some n) : 1 ≤ n := by
  simp only [entMatch] at h
  split at h
  · simp at h
  · simp at h; omega

theorem opMatch_pos (s : Str) (n : Nat) (h : opMatch s = some n) : 1 ≤ n := by
  match s with
  | [] => simp [opMatch] at h
  | [c] =>
    simp only [opMatch] at h
    split at h <;> simp at h
    omega
  | c :: d :: cs =>
    simp only [opMatch] at h
    split at h
    · simp at h; omega
    · split at h <;> simp at h
      omega

theorem simbMatch_pos (s : Str) (n : Nat) (h : simbMatch s = some n) : 1 ≤ n := by
  match s with
  | [] => simp [simbMatch] at h
  | c :: cs =>
    simp only [simbMatch] at h
    split at h <;> simp at h
    omega

theorem identMatch_pos (s : Str) (n : Nat) (h : identMatch s = some n) : 1 ≤ n := by
  match s with
  | [] => simp [identMatch] at h
  | c :: cs =>
    simp only [identMatch] at h
    split at h <;> simp at h
    omega

/-- Every branch of MASTER_RE matches a span of at least one character. -/
theorem masterMatch_pos (s : Str) (c : Cat) (n : Nat)
    (h : masterMatch s = some (c, n)) : 1 ≤ n := by
  unfold masterMatch at h
  split at h
  next m hm => simp at h; exact h.2 ▸ bloqMatch_pos s m hm
  next =>
  split at h
  next m hm => simp at h; exact h.2 ▸ lineaMatch_pos s m hm
  next =>
  split at h
  next m hm => simp at h; exact h.2 ▸ espacioMatch_pos s m hm
  next =>
  split at h
  next m hm => simp at h; exact h.2 ▸ nlMatch_pos s m hm
  next =>
  split at h
  next m hm => simp at h; exact h.2 ▸ cadenaMatch_pos s m hm
  next =>
  split at h
  next m hm => simp at h; exact h.2 ▸ flotMatch_pos s m hm
  next =>
  split at h
  next m hm => simp at h; exact h.2 ▸ entMatch_pos s m hm
  next =>
  split at h
  next m hm => simp at h; exact h.2 ▸ opMatch_pos s m hm
  next =>
  split at h
  next m hm => simp at h; exact h.2 ▸ simbMatch_pos s m hm
  next =>
  split at h
  next m hm => simp at h; exact h.2 ▸ identMatch_pos s m hm
  next => simp at h

/-- MASTER_RE finds nothing in an empty input. -/
theorem masterMatch_nil : masterMatch [] = none := by
  rfl

end Explorador

namespace Explorador

/-- The lexeme of a raw scanning outcome. -/
def rawLex : Raw → Str
  | Raw.mat _ lex => lex
  | Raw.bad ch => [ch]

/-- Concatenation of the raw scanning outcomes. -/
def rawJoin (l : List Raw) : Str :=
  l.foldr (fun r acc => rawLex r ++ acc) []

/-- The lexeme of a segment. -/
def segLex : Seg → Str
  | Seg.mat _ lex => lex
  | Seg.gap g => g

/-- Concatenation of the segments of a scan. -/
def segsJoin (l : List Seg) : Str :=
  l.foldr (fun r acc => segLex r ++ acc) []

theorem scanAux_nil (fuel : Nat) : scanAux fuel [] = [] := by
  cases fuel <;> rfl

/-- Once the fuel reaches the input length the scan no longer depends on it:
each iteration consumes at least one character. -/
theorem scanAux_fuel : ∀ (f g : Nat) (s : Str),
    s.length ≤ f → s.length ≤ g → scanAux f s = scanAux g s := by
  intro f
  induction f with
  | zero =>
    intro g s hf _
    have : s = [] := List.length_eq_zero.mp (Nat.le_zero.mp hf)
    subst this
    rw [scanAux_nil, scanAux_nil]
  | succ f ih =>
    intro g s hf hg
    match s with
    | [] => rw [scanAux_nil, scanAux_nil]
    | ch :: rest =>
      match g with
      | 0 => simp at hg
      | g + 1 =>
        show scanAux (f + 1) (ch :: rest) = scanAux (g + 1) (ch :: rest)
        simp only [scanAux]
        cases hm : masterMatch (ch :: rest) with
        | none =>
          simp only [List.length_cons] at hf hg
          dsimp only
          rw [ih g rest (by omega) (by omega)]
        | some cn =>
          obtain ⟨c, n⟩ := cn
          have hn := masterMatch_pos _ _ _ hm
          simp only [List.length_cons] at hf hg
          have h1 : ((ch :: rest).drop n).length ≤ f := by
            simp only [List.length_drop, List.length_cons]; omega
          have h2 : ((ch :: rest).drop n).length ≤ g := by
            simp only [List.length_drop, List.length_cons]; omega
          dsimp only
          rw [ih g ((ch :: rest).drop n) h1 h2]

theorem rawJoin_cons (r : Raw) (rs : List Raw) :
    rawJoin (r :: rs) = rawLex r ++ rawJoin rs := rfl

theorem segsJoin_cons (x : Seg) (xs : List Seg) :
    segsJoin (x :: xs) = segLex x ++ segsJoin xs := rfl

/-- One unfolding step of the complete scan. -/
theorem scan_cons_eq (ch : Char) (rest : Str) :
    scan (ch :: rest) =
      match masterMatch (ch :: rest) with
      | some (c, n) => Raw.mat c ((ch :: rest).take n) :: scan ((ch :: rest).drop n)
      | none => Raw.bad ch :: scan rest := by
  show scanAux ((ch :: rest).length) (ch :: rest) = _
  simp only [List.length_cons, scanAux]
  cases hm : masterMatch (ch :: rest) with
  | none =>
    dsimp only
    rw [scan]
  | some cn =>
    obtain ⟨c, n⟩ := cn
    have hn := masterMatch_pos _ _ _ hm
    dsimp only
    rw [scan]
    exact congrArg _ (scanAux_fuel rest.length ((ch :: rest).drop n).length _
      (by simp only [List.length_drop, List.length_cons]; omega) (le_refl _))

/-- Reconstruction at the raw level: the concatenation of the matched spans
and the skipped characters is the input. -/
theorem scanAux_join : ∀ (f : Nat) (s : Str), s.length ≤ f → rawJoin (scanAux f s) = s := by
  intro f
  induction f with
  | zero =>
    intro s hf
    have : s = [] := List.length_eq_zero.mp (Nat.le_zero.mp hf)
    subst this
    rfl
  | succ f ih =>
    intro s hf
    match s with
    | [] => rfl
    | ch :: rest =>
      simp only [List.length_cons] at hf
      simp only [scanAux]
      cases hm : masterMatch (ch :: rest) with
      | none =>
        dsimp only
        rw [rawJoin_cons, ih rest (by omega)]
        rfl
      | some cn =>
        obtain ⟨c, n⟩ := cn
        have hn := masterMatch_pos _ _ _ hm
        dsimp only
        rw [rawJoin_cons,
          ih ((ch :: rest).drop n) (by simp only [List.length_drop, List.length_cons]; omega)]
        exact List.take_append_drop n (ch :: rest)

theorem scan_join (s : Str) : rawJoin (scan s) = s :=
  scanAux_join s.length s (le_refl _)

/-- Grouping the skipped characters preserves the concatenation. -/
theorem coalesce_join : ∀ rs : List Raw, segsJoin (coalesce rs) = rawJoin rs := by
  intro rs
  induction rs with
  | nil => rfl
  | cons r rest ih =>
    cases r with
    | mat c lex =>
      simp only [coalesce]
      rw [segsJoin_cons, rawJoin_cons, ih]
      rfl
    | bad ch =>
      simp only [coalesce]
      rw [rawJoin_cons]
      cases hc : coalesce rest with
      | nil =>
        rw [hc] at ih
        dsimp only
        rw [segsJoin_cons, ← ih]
        rfl
      | cons seg segs =>
        cases seg with
        | gap g =>
          rw [hc] at ih
          dsimp only
          rw [segsJoin_cons, ← ih, segsJoin_cons]
          simp [segLex, rawLex]
        | mat c lex =>
          rw [hc] at ih
          dsimp only
          rw [segsJoin_cons, ← ih]
          rfl

/-- Reconstruction at the segment level. -/
theorem segsJoin_scan (s : Str) : segsJoin (coalesce (scan s)) = s := by
  rw [coalesce_join, scan_join]

end Explorador

namespace Explorador

/-! Membership facts: segments are non-empty, match segments come from
MASTER_RE matches, gap segments are made of skipped characters, and every
segment is a contiguous piece of the concatenation. -/

theorem scanAux_mem_lex_ne : ∀ (f : Nat) (s : Str) (r : Raw),
    r ∈ scanAux f s → rawLex r ≠ [] := by
  intro f
  induction f with
  | zero => intro s r hr; simp [scanAux] at hr
  | succ f ih =>
    intro s r hr
    match s with
    | [] => simp [scanAux] at hr
    | ch :: rest =>
      simp only [scanAux] at hr
      cases hm : masterMatch (ch :: rest) with
      | none =>
        rw [hm] at hr
        simp only [List.mem_cons] at hr
        rcases hr with rfl | hr
        · simp [rawLex]
        · exact ih rest r hr
      | some cn =>
        obtain ⟨c, n⟩ := cn
        have hn := masterMatch_pos _ _ _ hm
        rw [hm] at hr
        simp only [List.mem_cons] at hr
        rcases hr with rfl | hr
        · simp only [rawLex, ne_eq, List.take_eq_nil_iff]
          rintro (h | h)
          · omega
          · exact List.noConfusion h
        · exact ih _ r hr

/-- Every segment of the grouping is either a non-empty gap all of whose
characters were skipped by the scan, or a match segment present in the raw
scan. -/
theorem coalesce_mem : ∀ (rs : List Raw) (seg : Seg), seg ∈ coalesce rs →
    (∃ g, seg = Seg.gap g ∧ g ≠ [] ∧ ∀ ch ∈ g, Raw.bad ch ∈ rs) ∨
    (∃ c lex, seg = Seg.mat c lex ∧ Raw.mat c lex ∈ rs) := by
  intro rs
  induction rs with
  | nil => intro seg h; simp [coalesce] at h
  | cons r rest ih =>
    intro seg h
    cases r with
    | mat c lex =>
      simp only [coalesce, List.mem_cons] at h
      rcases h with rfl | h
      · right; exact ⟨c, lex, rfl, List.mem_cons_self _ _⟩
      · rcases ih seg h with ⟨g, rfl, hg, hall⟩ | ⟨c2, lex2, rfl, hmem⟩
        · left; exact ⟨g, rfl, hg, fun ch hch => List.mem_cons_of_mem _ (hall ch hch)⟩
        · right; exact ⟨c2, lex2, rfl, List.mem_cons_of_mem _ hmem⟩
    | bad ch =>
      simp only [coalesce] at h
      cases hc : coalesce rest with
      | nil =>
        rw [hc] at h
        simp only [List.mem_cons] at h
        rcases h with rfl | h
        · left
          refine ⟨[ch], rfl, by simp, ?_⟩
          intro x hx
          simp only [List.mem_singleton] at hx
          subst hx
          exact List.mem_cons_self _ _
        · simp at h
      | cons seg0 segs =>
        cases seg0 with
        | gap g =>
          rw [hc] at h
          simp only [List.mem_cons] at h
          rcases h with rfl | h
          · left
            refine ⟨ch :: g, rfl, by simp, ?_⟩
            intro x hx
            simp only [List.mem_cons] at hx
            rcases hx with rfl | hx
            · exact List.mem_cons_self _ _
            · rcases ih (Seg.gap g) (hc ▸ List.mem_cons_self _ _) with
                ⟨g2, hg2, _, hall⟩ | ⟨c2, lex2, hbad, _⟩
              · cases hg2
                exact List.mem_cons_of_mem _ (hall x hx)
              · exact absurd hbad (by simp)
          · have : seg ∈ coalesce rest := hc ▸ List.mem_cons_of_mem _ h
            rcases ih seg this with ⟨g2, rfl, hg2, hall⟩ | ⟨c2, lex2, rfl, hmem⟩
            · left; exact ⟨g2, rfl, hg2, fun x hx => List.mem_cons_of_mem _ (hall x hx)⟩
            · right; exact ⟨c2, lex2, rfl, List.mem_cons_of_mem _ hmem⟩
        | mat c2 lex2 =>
          rw [hc] at h
          simp only [List.mem_cons] at h
          rcases h with rfl | h
          · left
            refine ⟨[ch], rfl, by simp, ?_⟩
            intro x hx
            simp only [List.mem_singleton] at hx
            subst hx
            exact List.mem_cons_self _ _
          · have : seg ∈ coalesce rest := by
              rw [hc]
              exact List.mem_cons.mpr h
            rcases ih seg this with ⟨g2, rfl, hg2, hall⟩ | ⟨c3, lex3, rfl, hmem⟩
            · left; exact ⟨g2, rfl, hg2, fun x hx => List.mem_cons_of_mem _ (hall x hx)⟩
            · right; exact ⟨c3, lex3, rfl, List.mem_cons_of_mem _ hmem⟩

/-- A segment of a list is a contiguous piece of the concatenation. -/
theorem mem_segsJoin_infix : ∀ (segs : List Seg) (seg : Seg), seg ∈ segs →
    ∃ pre post, segsJoin segs = pre ++ segLex seg ++ post := by
  intro segs
  induction segs with
  | nil => intro seg h; simp at h
  | cons s0 rest ih =>
    intro seg h
    simp only [List.mem_cons] at h
    rcases h with rfl | h
    · exact ⟨[], segsJoin rest, by rw [segsJoin_cons]; simp⟩
    · obtain ⟨pre, post, hpp⟩ := ih seg h
      exact ⟨segLex s0 ++ pre, post, by rw [segsJoin_cons, hpp]; simp⟩

/-- Auxiliary: an Except.map that lands on ok came from an ok. -/
theorem except_map_ok {ε α β : Type} (e : Except ε α) (g : α → β) (b : β)
    (h : Except.map g e = Except.ok b) : ∃ a, e = Except.ok a ∧ b = g a := by
  cases e with
  | error err => simp [Except.map] at h
  | ok a =>
    simp only [Except.map, Except.ok.injEq] at h
    exact ⟨a, rfl, h.symm⟩

/-- Every token of a successful run takes its lexeme from one of the
processed segments. -/
theorem runSegs_ok_token_lex (conNL tol : Bool) :
    ∀ (segs : List Seg) (pos linea li : Nat) (toks : List Token),
      runSegs conNL tol segs pos linea li = .ok toks →
      ∀ t ∈ toks, ∃ seg ∈ segs, t.lexema = segLex seg := by
  intro segs
  induction segs with
  | nil =>
    intro pos linea li toks h t ht
    simp only [runSegs, Except.ok.injEq] at h
    subst h
    simp at ht
  | cons seg0 rest ih =>
    intro pos linea li toks h t ht
    cases seg0 with
    | gap g =>
      simp only [runSegs] at h
      split at h
      · obtain ⟨seg, hseg, hlex⟩ := ih _ _ _ _ h t ht
        exact ⟨seg, List.mem_cons_of_mem _ hseg, hlex⟩
      · split at h
        · split at h
          · simp only [Except.ok.injEq] at h
            subst h
            simp only [List.mem_singleton] at ht
            subst ht
            exact ⟨Seg.gap g, List.mem_cons_self _ _, rfl⟩
          · exact absurd h (by simp)
        · split at h <;> exact absurd h (by simp)
    | mat c lex =>
      cases c with
      | nl =>
        simp only [runSegs] at h
        split at h
        · obtain ⟨ts, hts, rfl⟩ := except_map_ok _ _ _ h
          simp only [List.mem_cons] at ht
          rcases ht with rfl | ht
          · exact ⟨Seg.mat Cat.nl lex, List.mem_cons_self _ _, rfl⟩
          · obtain ⟨seg, hseg, hlex⟩ := ih _ _ _ _ hts t ht
            exact ⟨seg, List.mem_cons_of_mem _ hseg, hlex⟩
        · obtain ⟨seg, hseg, hlex⟩ := ih _ _ _ _ h t ht
          exact ⟨seg, List.mem_cons_of_mem _ hseg, hlex⟩
      | espacio =>
        simp only [runSegs] at h
        obtain ⟨seg, hseg, hlex⟩ := ih _ _ _ _ h t ht
        exact ⟨seg, List.mem_cons_of_mem _ hseg, hlex⟩
      | linea =>
        simp only [runSegs] at h
        obtain ⟨seg, hseg, hlex⟩ := ih _ _ _ _ h t ht
        exact ⟨seg, List.mem_cons_of_mem _ hseg, hlex⟩
      | bloq =>
        simp only [runSegs] at h
        obtain ⟨seg, hseg, hlex⟩ := ih _ _ _ _ h t ht
        exact ⟨seg, List.mem_cons_of_mem _ hseg, hlex⟩
      | cadena =>
        simp only [runSegs] at h
        obtain ⟨ts, hts, rfl⟩ := except_map_ok _ _ _ h
        simp only [List.mem_cons] at ht
        rcases ht with rfl | ht
        · exact ⟨Seg.mat Cat.cadena lex, List.mem_cons_self _ _, rfl⟩
        · obtain ⟨seg, hseg, hlex⟩ := ih _ _ _ _ hts t ht
          exact ⟨seg, List.mem_cons_of_mem _ hseg, hlex⟩
      | flot =>
        simp only [runSegs] at h
        obtain ⟨ts, hts, rfl⟩ := except_map_ok _ _ _ h
        simp only [List.mem_cons] at ht
        rcases ht with rfl | ht
        · exact ⟨Seg.mat Cat.flot lex, List.mem_cons_self _ _, rfl⟩
        · obtain ⟨seg, hseg, hlex⟩ := ih _ _ _ _ hts t ht
          exact ⟨seg, List.mem_cons_of_mem _ hseg, hlex⟩
      | ent =>
        simp only [runSegs] at h
        obtain ⟨ts, hts, rfl⟩ := except_map_ok _ _ _ h
        simp only [List.mem_cons] at ht
        rcases ht with rfl | ht
        · exact ⟨Seg.mat Cat.ent lex, List.mem_cons_self _ _, rfl⟩
        · obtain ⟨seg, hseg, hlex⟩ := ih _ _ _ _ hts t ht
          exact ⟨seg, List.mem_cons_of_mem _ hseg, hlex⟩
      | op =>
        simp only [runSegs] at h
        obtain ⟨ts, hts, rfl⟩ := except_map_ok _ _ _ h
        simp only [List.mem_cons] at ht
        rcases ht with rfl | ht
        · exact ⟨Seg.mat Cat.op lex, List.mem_cons_self _ _, rfl⟩
        · obtain ⟨seg, hseg, hlex⟩ := ih _ _ _ _ hts t ht
          exact ⟨seg, List.mem_cons_of_mem _ hseg, hlex⟩
      | simb =>
        simp only [runSegs] at h
        obtain ⟨ts, hts, rfl⟩ := except_map_ok _ _ _ h
        simp only [List.mem_cons] at ht
        rcases ht with rfl | ht
        · exact ⟨Seg.mat Cat.simb lex, List.mem_cons_self _ _, rfl⟩
        · obtain ⟨seg, hseg, hlex⟩ := ih _ _ _ _ hts t ht
          exact ⟨seg, List.mem_cons_of_mem _ hseg, hlex⟩
      | ident =>
        simp only [runSegs] at h
        obtain ⟨ts, hts, rfl⟩ := except_map_ok _ _ _ h
        simp only [List.mem_cons] at ht
        rcases ht with rfl | ht
        · exact ⟨Seg.mat Cat.ident lex, List.mem_cons_self _ _, rfl⟩
        · obtain ⟨seg, hseg, hlex⟩ := ih _ _ _ _ hts t ht
          exact ⟨seg, List.mem_cons_of_mem _ hseg, hlex⟩

end Explorador

namespace Explorador

/-- Claim C1: the tolerant mid-input recovery path is broken.  On input
x-space-at-space-y in tolerant mode the source reaches the in-loop
unrecognized-chunk branch and constructs Token with five positional arguments
(lexema, tipo, linea, col, atributos) although the dataclass has three fields,
so Python raises TypeError instead of emitting the ERROR token and the
IDENTIFIER that the claim promises after it. -/
theorem c1_tolerant_midgap_type_error :
    tokenizar false true ("x @ y".toList) = .error PyError.typeError := by rfl

/-- The trailing-gap tolerant branch, by contrast, builds the ERROR token as
documented: the defect of claim C1 is confined to gaps followed by a further
match. -/
theorem c1_trailing_gap_error_token_ok :
    tokenizar false true ("x @".toList) = .ok
      [⟨['x'], "IDENT", [("fila", AttrVal.nat 1), ("columna", AttrVal.nat 1)]⟩,
       ⟨['@'], "ERROR", [("fila", AttrVal.nat 1), ("columna", AttrVal.nat 3),
         ("motivo", AttrVal.str ("desconocido".toList))]⟩] := by rfl

/-- Claim C2: every emitted token's lexeme is a non-empty contiguous
substring of the input, and the segments of the scan (matched spans in source
order together with the unrecognized gap spans) concatenate to exactly the
original input, with no character lost or duplicated. -/
theorem c2_reconstruction (s : Str) :
    segsJoin (coalesce (scan s)) = s ∧
    ∀ (conNL tol : Bool) (toks : List Token), tokenizar conNL tol s = .ok toks →
      ∀ t ∈ toks, t.lexema ≠ [] ∧ ∃ pre post, s = pre ++ t.lexema ++ post := by
  refine ⟨segsJoin_scan s, ?_⟩
  intro conNL tol toks h t ht
  obtain ⟨seg, hseg, hlex⟩ := runSegs_ok_token_lex conNL tol _ _ _ _ _ h t ht
  constructor
  · rcases coalesce_mem _ _ hseg with ⟨g, rfl, hg, _⟩ | ⟨c, lex, rfl, hmem⟩
    · simpa [segLex] using hlex ▸ hg
    · have := scanAux_mem_lex_ne _ _ _ hmem
      simpa [segLex, rawLex] using hlex ▸ this
  · obtain ⟨pre, post, hpp⟩ := mem_segsJoin_infix _ _ hseg
    rw [segsJoin_scan s] at hpp
    exact ⟨pre, post, by rw [hlex]; exact hpp⟩

/-- Witness for claim C2 at the concrete input si-space-x. -/
theorem c2_reconstruction_witness :
    tokenizar false false ("si x".toList) = .ok
      [⟨"si".toList, "PALABRA_CLAVE", [("fila", AttrVal.nat 1), ("columna", AttrVal.nat 1)]⟩,
       ⟨"x".toList, "IDENT", [("fila", AttrVal.nat 1), ("columna", AttrVal.nat 4)]⟩] ∧
    (⟨"x".toList, "IDENT", [("fila", AttrVal.nat 1), ("columna", AttrVal.nat 4)]⟩ : Token).lexema ≠ [] ∧
    ∃ pre post, "si x".toList = pre ++
      (⟨"x".toList, "IDENT", [("fila", AttrVal.nat 1), ("columna", AttrVal.nat 4)]⟩ : Token).lexema ++ post :=
  ⟨by rfl,
   (c2_reconstruction ("si x".toList)).2 false false
     [⟨"si".toList, "PALABRA_CLAVE", [("fila", AttrVal.nat 1), ("columna", AttrVal.nat 1)]⟩,
      ⟨"x".toList, "IDENT", [("fila", AttrVal.nat 1), ("columna", AttrVal.nat 4)]⟩]
     (by rfl)
     ⟨"x".toList, "IDENT", [("fila", AttrVal.nat 1), ("columna", AttrVal.nat 4)]⟩
     (by simp)⟩

/-- Claim C6: progress and termination.  Every branch of MASTER_RE consumes
at least one character, every segment of the decomposition (match or
unrecognized gap) is non-empty, and the scanning loop is bounded by the input
length: any fuel of at least the input length yields the same, final scan. -/
theorem c6_progress (s : Str) :
    (∀ (c : Cat) (n : Nat), masterMatch s = some (c, n) → 1 ≤ n) ∧
    (∀ seg ∈ coalesce (scan s), 1 ≤ (segLex seg).length) ∧
    (∀ fuel : Nat, s.length ≤ fuel → scanAux fuel s = scan s) := by
  refine ⟨fun c n h => masterMatch_pos s c n h, ?_, ?_⟩
  · intro seg hseg
    rcases coalesce_mem _ _ hseg with ⟨g, rfl, hg, _⟩ | ⟨c, lex, rfl, hmem⟩
    · simp only [segLex]
      cases g with
      | nil => exact absurd rfl hg
      | cons a l => simp
    · have := scanAux_mem_lex_ne _ _ _ hmem
      simp only [rawLex, ne_eq] at this
      simp only [segLex]
      cases lex with
      | nil => exact absurd rfl this
      | cons a l => simp
  · intro fuel hfuel
    exact scanAux_fuel fuel s.length s hfuel (le_refl _)

/-- Witness for claim C6 at a concrete input containing both a match and an
unrecognized character. -/
theorem c6_progress_witness :
    masterMatch ("a@".toList) = some (Cat.ident, 1) ∧ 1 ≤ 1 ∧
    (Seg.gap ['@'] ∈ coalesce (scan ("a@".toList)) ∧
      1 ≤ (segLex (Seg.gap ['@'])).length) ∧
    ("a@".toList.length ≤ 5 ∧ scanAux 5 ("a@".toList) = scan ("a@".toList)) :=
  ⟨by rfl, (c6_progress ("a@".toList)).1 Cat.ident 1 (by rfl),
   ⟨by decide, (c6_progress ("a@".toList)).2.1 _ (by decide)⟩,
   ⟨by decide, (c6_progress ("a@".toList)).2.2 5 (by decide)⟩⟩

/-- Claim C7: on input ampersand-ampersand-equals in strict mode the
two-character operator is preferred at position zero, leaving the equals sign
as a second operator token; the scan neither loops nor fails. -/
theorem c7_multi_op_priority :
    tokenizar false false ("&&=".toList) = .ok
      [⟨"&&".toList, "OPERADOR", [("fila", AttrVal.nat 1), ("columna", AttrVal.nat 1)]⟩,
       ⟨"=".toList, "OPERADOR", [("fila", AttrVal.nat 1), ("columna", AttrVal.nat 3)]⟩] := by
  rfl

/-- Claim C10: tokenizing the empty string returns an empty token list and no
error, under every combination of the two options. -/
theorem c10_empty_input (conNL tol : Bool) : tokenizar conNL tol [] = .ok [] := by
  cases conNL <;> cases tol <;> rfl

end Explorador

namespace Explorador

/-! Strict-mode failure: a gap that is not benign makes the run return an
error, wherever it sits in the segment list. -/

theorem except_map_error {ε α β : Type} (e : Except ε α) (g : α → β) (err : ε)
    (h : e = Except.error err) : Except.map g e = Except.error err := by
  subst h
  rfl

/-- In strict mode, as soon as some gap segment fails the benign-whitespace
test, the whole run returns an error. -/
theorem runSegs_error_of_bad_gap (conNL : Bool) :
    ∀ (segs : List Seg) (pos linea li : Nat) (g : Str),
      Seg.gap g ∈ segs → consumeDesconocido g = false →
      ∃ e, runSegs conNL false segs pos linea li = .error e := by
  intro segs
  induction segs with
  | nil => intro pos linea li g hg _; simp at hg
  | cons seg0 rest ih =>
    intro pos linea li g hg hbad
    cases seg0 with
    | gap g0 =>
      by_cases hben : consumeDesconocido g0 = true
      · simp only [List.mem_cons] at hg
        rcases hg with hg | hg
        · cases hg
          rw [hben] at hbad
          exact absurd hbad (by simp)
        · obtain ⟨e, he⟩ := ih _ _ _ g hg hbad
          exact ⟨e, by simp only [runSegs, hben, if_true]; exact he⟩
      · have hben2 : consumeDesconocido g0 = false := by
          cases hc : consumeDesconocido g0
          · rfl
          · exact absurd hc hben
        cases rest with
        | nil =>
          exact ⟨PyError.exploradorError true linea (pos - li + 1) (escapeNl (g0.take 20)),
            by simp [runSegs, hben2]⟩
        | cons r rs =>
          exact ⟨PyError.exploradorError false linea (pos - li + 1) (escapeNl (g0.take 20)),
            by simp [runSegs, hben2]⟩
    | mat c lex =>
      simp only [List.mem_cons] at hg
      rcases hg with hg | hg
      · exact absurd hg (by simp)
      · obtain ⟨e, he⟩ := ih (pos + lex.length) linea li g hg hbad
        cases c with
        | nl =>
          obtain ⟨e2, he2⟩ := ih (pos + lex.length) (linea + countNl lex)
            (match lastNlIdx lex with
             | some k => pos + k + 1
             | none => li) g hg hbad
          cases conNL with
          | true =>
            refine ⟨e2, ?_⟩
            simp only [runSegs, if_true]
            exact except_map_error _ _ _ he2
          | false =>
            refine ⟨e2, ?_⟩
            simp only [runSegs, Bool.false_eq_true, if_false]
            exact he2
        | espacio => exact ⟨e, by simp only [runSegs]; exact he⟩
        | linea => exact ⟨e, by simp only [runSegs]; exact he⟩
        | bloq => exact ⟨e, by simp only [runSegs]; exact he⟩
        | cadena => exact ⟨e, by simp only [runSegs]; exact except_map_error _ _ _ he⟩
        | flot => exact ⟨e, by simp only [runSegs]; exact except_map_error _ _ _ he⟩
        | ent => exact ⟨e, by simp only [runSegs]; exact except_map_error _ _ _ he⟩
        | op => exact ⟨e, by simp only [runSegs]; exact except_map_error _ _ _ he⟩
        | simb => exact ⟨e, by simp only [runSegs]; exact except_map_error _ _ _ he⟩
        | ident => exact ⟨e, by simp only [runSegs]; exact except_map_error _ _ _ he⟩

/-- Claim C4: strict-mode failure on unrecognized input.  Whenever the scan
of the input contains a gap with at least one non-whitespace character (a
gap failing the benign test of the consume-desconocido helper), strict-mode
tokenization returns an ExploradorError and no token list; in particular the
input consisting of a single at-sign fails with an error reporting row 1,
column 1. -/
theorem c4_strict_failure (conNL : Bool) (s g : Str)
    (hmem : Seg.gap g ∈ coalesce (scan s))
    (hbad : consumeDesconocido g = false) :
    (∃ e, tokenizar conNL false s = .error e) ∧
    tokenizar false false ['@'] =
      .error (PyError.exploradorError true 1 1 ['@']) :=
  ⟨runSegs_error_of_bad_gap conNL _ 0 1 0 g hmem hbad, by rfl⟩

/-- Witness for claim C4 at the concrete input consisting of one at-sign. -/
theorem c4_strict_failure_witness :
    (Seg.gap ['@'] ∈ coalesce (scan ['@']) ∧ consumeDesconocido ['@'] = false) ∧
    (∃ e, tokenizar false false ['@'] = .error e) :=
  ⟨⟨by decide, by decide⟩,
   (c4_strict_failure false ['@'] ['@'] (by decide) (by decide)).1⟩

end Explorador

namespace Explorador

/-- Tokens whose final kind is CADENA can only arise from a string match, and
then their attributes are exactly valor, fila, columna with valor the lexeme
stripped of its first and last character. -/
theorem runSegs_cadena_attrs (conNL tol : Bool) :
    ∀ (segs : List Seg) (pos linea li : Nat) (toks : List Token),
      runSegs conNL tol segs pos linea li = .ok toks →
      ∀ t ∈ toks, t.tipo = "CADENA" →
      ∃ f col, t.atributos =
        [("valor", AttrVal.str ((t.lexema.drop 1).dropLast)),
         ("fila", AttrVal.nat f), ("columna", AttrVal.nat col)] := by
  intro segs
  induction segs with
  | nil =>
    intro pos linea li toks h t ht htipo
    simp only [runSegs, Except.ok.injEq] at h
    subst h
    simp at ht
  | cons seg0 rest ih =>
    intro pos linea li toks h t ht htipo
    cases seg0 with
    | gap g =>
      simp only [runSegs] at h
      split at h
      · exact ih _ _ _ _ h t ht htipo
      · split at h
        · split at h
          · simp only [Except.ok.injEq] at h
            subst h
            simp only [List.mem_singleton] at ht
            subst ht
            have herr : ("ERROR" : String) = "CADENA" := htipo
            simp at herr
          · exact absurd h (by simp)
        · split at h <;> exact absurd h (by simp)
    | mat c lex =>
      cases c with
      | nl =>
        simp only [runSegs] at h
        split at h
        · obtain ⟨ts, hts, rfl⟩ := except_map_ok _ _ _ h
          simp only [List.mem_cons] at ht
          rcases ht with rfl | ht
          · have hnl : ("NL" : String) = "CADENA" := htipo
            simp at hnl
          · exact ih _ _ _ _ hts t ht htipo
        · exact ih _ _ _ _ h t ht htipo
      | espacio =>
        simp only [runSegs] at h
        exact ih _ _ _ _ h t ht htipo
      | linea =>
        simp only [runSegs] at h
        exact ih _ _ _ _ h t ht htipo
      | bloq =>
        simp only [runSegs] at h
        exact ih _ _ _ _ h t ht htipo
      | cadena =>
        simp only [runSegs] at h
        obtain ⟨ts, hts, rfl⟩ := except_map_ok _ _ _ h
        simp only [List.mem_cons] at ht
        rcases ht with rfl | ht
        · exact ⟨linea, pos - li + 1, rfl⟩
        · exact ih _ _ _ _ hts t ht htipo
      | flot =>
        simp only [runSegs] at h
        obtain ⟨ts, hts, rfl⟩ := except_map_ok _ _ _ h
        simp only [List.mem_cons] at ht
        rcases ht with rfl | ht
        · have hcl : (clasificar Cat.flot lex).1 = "CADENA" := htipo
          simp [clasificar] at hcl
        · exact ih _ _ _ _ hts t ht htipo
      | ent =>
        simp only [runSegs] at h
        obtain ⟨ts, hts, rfl⟩ := except_map_ok _ _ _ h
        simp only [List.mem_cons] at ht
        rcases ht with rfl | ht
        · have hcl : (clasificar Cat.ent lex).1 = "CADENA" := htipo
          simp [clasificar] at hcl
        · exact ih _ _ _ _ hts t ht htipo
      | op =>
        simp only [runSegs] at h
        obtain ⟨ts, hts, rfl⟩ := except_map_ok _ _ _ h
        simp only [List.mem_cons] at ht
        rcases ht with rfl | ht
        · have hcl : (clasificar Cat.op lex).1 = "CADENA" := htipo
          simp [clasificar] at hcl
        · exact ih _ _ _ _ hts t ht htipo
      | simb =>
        simp only [runSegs] at h
        obtain ⟨ts, hts, rfl⟩ := except_map_ok _ _ _ h
        simp only [List.mem_cons] at ht
        rcases ht with rfl | ht
        · have hcl : (clasificar Cat.simb lex).1 = "CADENA" := htipo
          simp [clasificar] at hcl
        · exact ih _ _ _ _ hts t ht htipo
      | ident =>
        simp only [runSegs] at h
        obtain ⟨ts, hts, rfl⟩ := except_map_ok _ _ _ h
        simp only [List.mem_cons] at ht
        rcases ht with rfl | ht
        · have hcl : (clasificar Cat.ident lex).1 = "CADENA" := htipo
          simp only [clasificar] at hcl
          split at hcl <;> simp at hcl
        · exact ih _ _ _ _ hts t ht htipo

/-- Claim C9: every CADENA token carries an attribute valor equal to its
lexeme with exactly the first and last character (the quotes) removed, while
the lexeme keeps the quotes, and no escape processing is performed: the input
quote-hola-quote yields one CADENA token with the quoted lexeme and valor
hola, and a backslash in the body reappears literally in valor. -/
theorem c9_cadena_value (conNL tol : Bool) (s : Str) (toks : List Token) (t : Token)
    (h : tokenizar conNL tol s = .ok toks) (ht : t ∈ toks) (htipo : t.tipo = "CADENA") :
    (∃ f col, t.atributos =
      [("valor", AttrVal.str ((t.lexema.drop 1).dropLast)),
       ("fila", AttrVal.nat f), ("columna", AttrVal.nat col)]) ∧
    tokenizar false false ("\"hola\"".toList) = .ok
      [⟨"\"hola\"".toList, "CADENA",
        [("valor", AttrVal.str ("hola".toList)),
         ("fila", AttrVal.nat 1), ("columna", AttrVal.nat 1)]⟩] ∧
    tokenizar false false ("\"a\\b\"".toList) = .ok
      [⟨"\"a\\b\"".toList, "CADENA",
        [("valor", AttrVal.str ("a\\b".toList)),
         ("fila", AttrVal.nat 1), ("columna", AttrVal.nat 1)]⟩] :=
  ⟨runSegs_cadena_attrs conNL tol _ _ _ _ _ h t ht htipo, by rfl, by rfl⟩

/-- Witness for claim C9 at the concrete quote-hola-quote input. -/
theorem c9_cadena_value_witness :
    tokenizar false false ("\"hola\"".toList) = .ok
      [⟨"\"hola\"".toList, "CADENA",
        [("valor", AttrVal.str ("hola".toList)),
         ("fila", AttrVal.nat 1), ("columna", AttrVal.nat 1)]⟩] ∧
    (∃ f col,
      (⟨"\"hola\"".toList, "CADENA",
        [("valor", AttrVal.str ("hola".toList)),
         ("fila", AttrVal.nat 1), ("columna", AttrVal.nat 1)]⟩ : Token).atributos =
      [("valor", AttrVal.str (((⟨"\"hola\"".toList, "CADENA",
          [("valor", AttrVal.str ("hola".toList)),
           ("fila", AttrVal.nat 1), ("columna", AttrVal.nat 1)]⟩ : Token).lexema.drop 1).dropLast)),
       ("fila", AttrVal.nat f), ("columna", AttrVal.nat col)]) :=
  ⟨by rfl,
   (c9_cadena_value false false ("\"hola\"".toList)
     [⟨"\"hola\"".toList, "CADENA",
       [("valor", AttrVal.str ("hola".toList)),
        ("fila", AttrVal.nat 1), ("columna", AttrVal.nat 1)]⟩]
     ⟨"\"hola\"".toList, "CADENA",
       [("valor", AttrVal.str ("hola".toList)),
        ("fila", AttrVal.nat 1), ("columna", AttrVal.nat 1)]⟩
     (by rfl) (by simp) (by rfl)).1⟩

end Explorador

namespace Explorador

/-- No closing double quote occurs before the next line terminator or the end
of the input: the condition under which a string starting at a preceding
quote is unterminated. -/
def noQuoteBeforeNl : Str → Bool
  | [] => true
  | c :: cs => if c = '"' then false else if c = '\n' then true else noQuoteBeforeNl cs

/-- The suffixes of the input at which the scanning pass evaluates MASTER_RE:
the positions the cursor actually visits. -/
def scanVisitedAux : Nat → Str → List Str
  | 0, _ => []
  | _, [] => []
  | fuel + 1, ch :: rest =>
    (ch :: rest) ::
      (match masterMatch (ch :: rest) with
       | some (_, n) => scanVisitedAux fuel ((ch :: rest).drop n)
       | none => scanVisitedAux fuel rest)

/-- The suffixes visited by the complete scan. -/
def scanVisited (s : Str) : List Str := scanVisitedAux s.length s

/-- An unterminated string body defeats the CADENA body pattern. -/
theorem cadenaBody_none_of_noQuote : ∀ cs : Str,
    noQuoteBeforeNl cs = true → cadenaBody cs = none := by
  intro cs
  induction cs with
  | nil => intro _; rfl
  | cons c cs ih =>
    intro h
    simp only [noQuoteBeforeNl] at h
    by_cases hq : c = '"'
    · rw [if_pos hq] at h
      simp at h
    · rw [if_neg hq] at h
      by_cases hn : c = '\n'
      · simp only [cadenaBody, if_neg hq, if_pos hn]
      · rw [if_neg hn] at h
        simp only [cadenaBody, if_neg hq, if_neg hn, ih h]
        rfl

theorem bloqMatch_at_quote (rest : Str) : bloqMatch ('"' :: rest) = none := by
  cases rest <;> simp [bloqMatch]

theorem lineaMatch_at_quote (rest : Str) : lineaMatch ('"' :: rest) = none := by
  cases rest <;> simp [lineaMatch]

theorem espacioMatch_at_quote (rest : Str) : espacioMatch ('"' :: rest) = none := by
  have h : isEspacioChar '"' = false := by decide
  simp [espacioMatch, runLen, h]

theorem nlMatch_at_quote (rest : Str) : nlMatch ('"' :: rest) = none := by
  have h : nlRun ('"' :: rest) = 0 := by
    rw [nlRun.eq_def]
    simp
  simp [nlMatch, h]

theorem flotMatch_at_quote (rest : Str) : flotMatch ('"' :: rest) = none := by
  have h : isDigitChar '"' = false := by decide
  simp [flotMatch, runLen, h]

theorem entMatch_at_quote (rest : Str) : entMatch ('"' :: rest) = none := by
  have h : isDigitChar '"' = false := by decide
  simp [entMatch, runLen, h]

theorem opMatch_at_quote (rest : Str) : opMatch ('"' :: rest) = none := by
  cases rest with
  | nil => simp [opMatch, singleOps]
  | cons d cs =>
    have h : isMultiOp '"' d = false := by
      simp [isMultiOp]
    simp [opMatch, h, singleOps]

theorem simbMatch_at_quote (rest : Str) : simbMatch ('"' :: rest) = none := by
  simp [simbMatch, punctChars]

theorem identMatch_at_quote (rest : Str) : identMatch ('"' :: rest) = none := by
  have h : isIdentStart '"' = false := by decide
  simp [identMatch, h]

/-- At an unterminated opening quote the string rule fails, and with it every
rule of the table: the quote is unrecognized input. -/
theorem masterMatch_at_unterminated_quote (rest : Str)
    (hnq : noQuoteBeforeNl rest = true) :
    cadenaMatch ('"' :: rest) = none ∧ masterMatch ('"' :: rest) = none := by
  have hcad : cadenaMatch ('"' :: rest) = none := by
    simp [cadenaMatch, cadenaBody_none_of_noQuote rest hnq]
  refine ⟨hcad, ?_⟩
  unfold masterMatch
  rw [bloqMatch_at_quote, lineaMatch_at_quote, espacioMatch_at_quote, nlMatch_at_quote,
    hcad, flotMatch_at_quote, entMatch_at_quote, opMatch_at_quote, simbMatch_at_quote,
    identMatch_at_quote]

/-- Lifting a gap membership over one more raw outcome. -/
theorem coalesce_gap_lift (r : Raw) (rs : List Raw) (g : Str) (ch : Char)
    (hg : Seg.gap g ∈ coalesce rs) (hch : ch ∈ g) :
    ∃ g2, Seg.gap g2 ∈ coalesce (r :: rs) ∧ ch ∈ g2 := by
  cases r with
  | mat c lex =>
    exact ⟨g, by simp only [coalesce]; exact List.mem_cons_of_mem _ hg, hch⟩
  | bad b =>
    simp only [coalesce]
    cases hc : coalesce rs with
    | nil => rw [hc] at hg; simp at hg
    | cons seg0 segs =>
      rw [hc] at hg
      cases seg0 with
      | gap g0 =>
        simp only [List.mem_cons] at hg
        rcases hg with hg | hg
        · cases hg
          exact ⟨b :: g, List.mem_cons_self _ _, List.mem_cons_of_mem _ hch⟩
        · exact ⟨g, List.mem_cons_of_mem _ hg, hch⟩
      | mat c2 lex2 =>
        simp only [List.mem_cons] at hg
        rcases hg with hg | hg
        · exact absurd hg (by simp)
        · exact ⟨g, List.mem_cons_of_mem _ (List.mem_cons_of_mem _ hg), hch⟩

/-- A visited suffix at which MASTER_RE fails contributes its head character
to some gap of the final decomposition. -/
theorem scanVisitedAux_bad_gap : ∀ (f : Nat) (s u : Str) (ch : Char) (rest2 : Str),
    u ∈ scanVisitedAux f s → u = ch :: rest2 → masterMatch u = none →
    ∃ g, Seg.gap g ∈ coalesce (scanAux f s) ∧ ch ∈ g := by
  intro f
  induction f with
  | zero => intro s u ch rest2 hu _ _; simp [scanVisitedAux] at hu
  | succ f ih =>
    intro s u ch rest2 hu hq hmm
    match s with
    | [] => simp [scanVisitedAux] at hu
    | c0 :: r0 =>
      simp only [scanVisitedAux, List.mem_cons] at hu
      rcases hu with rfl | hu
      · injection hq with h1 h2
        subst h1
        subst h2
        simp only [scanAux, hmm, coalesce]
        cases hc : coalesce (scanAux f r0) with
        | nil => exact ⟨[c0], List.mem_cons_self _ _, List.mem_singleton.mpr rfl⟩
        | cons seg0 segs =>
          cases seg0 with
          | gap g0 =>
            exact ⟨c0 :: g0, List.mem_cons_self _ _, List.mem_cons_self _ _⟩
          | mat c2 lex2 =>
            exact ⟨[c0], List.mem_cons_self _ _, List.mem_singleton.mpr rfl⟩
      · cases hm0 : masterMatch (c0 :: r0) with
        | some cn =>
          obtain ⟨c1, n⟩ := cn
          rw [hm0] at hu
          obtain ⟨g, hg, hch⟩ := ih _ u ch rest2 hu hq hmm
          refine ⟨g, ?_, hch⟩
          simp only [scanAux, hm0, coalesce]
          exact List.mem_cons_of_mem _ hg
        | none =>
          rw [hm0] at hu
          obtain ⟨g, hg, hch⟩ := ih _ u ch rest2 hu hq hmm
          have := coalesce_gap_lift (Raw.bad c0) (scanAux f r0) g ch hg hch
          obtain ⟨g2, hg2, hch2⟩ := this
          refine ⟨g2, ?_, hch2⟩
          simpa only [scanAux, hm0] using hg2

/-- Claim C8 (amended): no rule of the table, the string rule included,
matches at an opening double quote that has no closing quote before the next
line terminator or the end of the input; consequently, when the scanning
cursor actually reaches such a quote (it is not enclosed in an earlier match
such as a comment), the quote lands in an unrecognized gap and strict-mode
tokenization of the input fails with an ExploradorError. -/
theorem c8_unterminated_string (conNL : Bool) (s u rest : Str)
    (hu : u ∈ scanVisited s) (hq : u = '"' :: rest)
    (hnq : noQuoteBeforeNl rest = true) :
    cadenaMatch u = none ∧ masterMatch u = none ∧
    ∃ e, tokenizar conNL false s = .error e := by
  obtain ⟨hcad, hmast⟩ := masterMatch_at_unterminated_quote rest hnq
  subst hq
  refine ⟨hcad, hmast, ?_⟩
  obtain ⟨g, hg, hch⟩ := scanVisitedAux_bad_gap s.length s _ '"' rest hu rfl hmast
  have hbad : consumeDesconocido g = false := by
    have hne : g ≠ [] := by
      intro h
      rw [h] at hch
      simp at hch
    simp only [consumeDesconocido, List.isEmpty_eq_true, if_neg hne]
    rw [List.all_eq_false]
    refine ⟨'"', ?_, by decide⟩
    rw [List.mem_filter]
    exact ⟨hch, by decide⟩
  exact runSegs_error_of_bad_gap conNL _ 0 1 0 g hg hbad

/-- Witness for claim C8 at the concrete input quote-a-b. -/
theorem c8_unterminated_string_witness :
    ("\"ab".toList ∈ scanVisited ("\"ab".toList) ∧
      noQuoteBeforeNl ("ab".toList) = true) ∧
    (cadenaMatch ("\"ab".toList) = none ∧ masterMatch ("\"ab".toList) = none ∧
      ∃ e, tokenizar false false ("\"ab".toList) = .error e) :=
  ⟨⟨by decide, by decide⟩,
   c8_unterminated_string false ("\"ab".toList) ("\"ab".toList) ("ab".toList)
     (by decide) rfl (by decide)⟩

/-- Counterexample to claim C8 as stated: the input slash-star-quote-star-slash
contains a double quote (at offset 2) with no closing quote before the end of
the input, yet the quote is consumed inside the block-comment match, so
strict-mode tokenization succeeds with an empty token list instead of failing
with a LexicalError. -/
theorem c8_counterexample :
    ("/*\"*/".toList).drop 2 = '"' :: "*/".toList ∧
    noQuoteBeforeNl ("*/".toList) = true ∧
    tokenizar false false ("/*\"*/".toList) = .ok [] :=
  ⟨by rfl, by rfl, by rfl⟩

end Explorador

namespace Explorador

/-! Newline bookkeeping: which segments can contain newline characters. -/

/-- Is the segment an NL (line-terminator run) match. -/
def isNlSeg : Seg → Bool
  | Seg.mat Cat.nl _ => true
  | _ => false

/-- Is the segment a comment match. -/
def isCommentSeg : Seg → Bool
  | Seg.mat Cat.bloq _ => true
  | Seg.mat Cat.linea _ => true
  | _ => false

theorem countNl_append : ∀ a b : Str, countNl (a ++ b) = countNl a + countNl b := by
  intro a b
  induction a with
  | nil => simp [countNl]
  | cons c cs ih =>
    show countNl (c :: (cs ++ b)) = countNl (c :: cs) + countNl b
    simp only [countNl]
    rw [ih]
    omega

theorem countNl_eq_zero (l : Str) (h : ∀ ch ∈ l, ch ≠ '\n') : countNl l = 0 := by
  induction l with
  | nil => rfl
  | cons c cs ih =>
    simp only [countNl]
    rw [if_neg (h c (List.mem_cons_self _ _)), ih fun ch hch => h ch (List.mem_cons_of_mem _ hch)]

/-- Characters inside a greedy class run satisfy the class. -/
theorem runLen_take_prop (p : Char → Bool) :
    ∀ (s : Str) (ch : Char), ch ∈ s.take (runLen p s) → p ch = true := by
  intro s
  induction s with
  | nil => intro ch h; simp at h
  | cons c cs ih =>
    intro ch h
    simp only [runLen] at h
    by_cases hp : p c = true
    · rw [if_pos hp] at h
      simp only [List.take_succ_cons, List.mem_cons] at h
      rcases h with rfl | h
      · exact hp
      · exact ih ch h
    · rw [if_neg hp] at h
      simp at h

/-- Inversion of the ordered alternation: a match of MASTER_RE tells which
rule matched, with the same span. -/
theorem masterMatch_some_elim (s : Str) (c : Cat) (n : Nat)
    (h : masterMatch s = some (c, n)) :
    (c = Cat.bloq ∧ bloqMatch s = some n) ∨
    (c = Cat.linea ∧ lineaMatch s = some n) ∨
    (c = Cat.espacio ∧ espacioMatch s = some n) ∨
    (c = Cat.nl ∧ nlMatch s = some n) ∨
    (c = Cat.cadena ∧ cadenaMatch s = some n) ∨
    (c = Cat.flot ∧ flotMatch s = some n) ∨
    (c = Cat.ent ∧ entMatch s = some n) ∨
    (c = Cat.op ∧ opMatch s = some n) ∨
    (c = Cat.simb ∧ simbMatch s = some n) ∨
    (c = Cat.ident ∧ identMatch s = some n) := by
  unfold masterMatch at h
  split at h
  next m hm => simp at h; exact Or.inl ⟨h.1.symm, h.2 ▸ hm⟩
  next =>
  split at h
  next m hm => simp at h; exact Or.inr (Or.inl ⟨h.1.symm, h.2 ▸ hm⟩)
  next =>
  split at h
  next m hm => simp at h; exact Or.inr (Or.inr (Or.inl ⟨h.1.symm, h.2 ▸ hm⟩))
  next =>
  split at h
  next m hm => simp at h; exact Or.inr (Or.inr (Or.inr (Or.inl ⟨h.1.symm, h.2 ▸ hm⟩)))
  next =>
  split at h
  next m hm =>
    simp at h
    exact Or.inr (Or.inr (Or.inr (Or.inr (Or.inl ⟨h.1.symm, h.2 ▸ hm⟩))))
  next =>
  split at h
  next m hm =>
    simp at h
    exact Or.inr (Or.inr (Or.inr (Or.inr (Or.inr (Or.inl ⟨h.1.symm, h.2 ▸ hm⟩)))))
  next =>
  split at h
  next m hm =>
    simp at h
    exact Or.inr (Or.inr (Or.inr (Or.inr (Or.inr (Or.inr (Or.inl ⟨h.1.symm, h.2 ▸ hm⟩))))))
  next =>
  split at h
  next m hm =>
    simp at h
    exact Or.inr (Or.inr (Or.inr (Or.inr (Or.inr (Or.inr (Or.inr
      (Or.inl ⟨h.1.symm, h.2 ▸ hm⟩)))))))
  next =>
  split at h
  next m hm =>
    simp at h
    exact Or.inr (Or.inr (Or.inr (Or.inr (Or.inr (Or.inr (Or.inr (Or.inr
      (Or.inl ⟨h.1.symm, h.2 ▸ hm⟩))))))))
  next =>
  split at h
  next m hm =>
    simp at h
    exact Or.inr (Or.inr (Or.inr (Or.inr (Or.inr (Or.inr (Or.inr (Or.inr (Or.inr
      ⟨h.1.symm, h.2 ▸ hm⟩))))))))
  next => simp at h

theorem espacio_take_ne_nl (s : Str) (n : Nat) (h : espacioMatch s = some n) :
    ∀ ch ∈ s.take n, ch ≠ '\n' := by
  simp only [espacioMatch] at h
  split at h
  · simp at h
  · simp only [Option.some.injEq] at h
    subst h
    intro ch hch heq
    have := runLen_take_prop isEspacioChar s ch hch
    subst heq
    exact absurd this (by decide)

theorem ent_take_ne_nl (s : Str) (n : Nat) (h : entMatch s = some n) :
    ∀ ch ∈ s.take n, ch ≠ '\n' := by
  simp only [entMatch] at h
  split at h
  · simp at h
  · simp only [Option.some.injEq] at h
    subst h
    intro ch hch heq
    have := runLen_take_prop isDigitChar s ch hch
    subst heq
    exact absurd this (by decide)

theorem cadenaBody_take_ne_nl : ∀ (cs : Str) (m : Nat), cadenaBody cs = some m →
    ∀ ch ∈ cs.take m, ch ≠ '\n' := by
  intro cs
  induction cs with
  | nil => intro m h; simp [cadenaBody] at h
  | cons c cs ih =>
    intro m h ch hch
    simp only [cadenaBody] at h
    by_cases hq : c = '"'
    · rw [if_pos hq] at h
      simp only [Option.some.injEq] at h
      subst h
      simp only [List.take_succ_cons, List.take_zero, List.mem_singleton] at hch
      subst hch
      subst hq
      decide
    · rw [if_neg hq] at h
      by_cases hn : c = '\n'
      · rw [if_pos hn] at h
        simp at h
      · rw [if_neg hn] at h
        cases hb : cadenaBody cs with
        | none => rw [hb] at h; simp at h
        | some m2 =>
          rw [hb] at h
          simp only [Option.map_some', Option.some.injEq] at h
          subst h
          simp only [List.take_succ_cons, List.mem_cons] at hch
          rcases hch with rfl | hch
          · exact hn
          · exact ih m2 hb ch hch

theorem cadena_take_ne_nl (s : Str) (n : Nat) (h : cadenaMatch s = some n) :
    ∀ ch ∈ s.take n, ch ≠ '\n' := by
  match s with
  | [] => simp [cadenaMatch] at h
  | c :: cs =>
    simp only [cadenaMatch] at h
    split at h
    next hq =>
      cases hb : cadenaBody cs with
      | none => rw [hb] at h; simp at h
      | some m =>
        rw [hb] at h
        simp only [Option.map_some', Option.some.injEq] at h
        subst h
        intro ch hch
        simp only [List.take_succ_cons, List.mem_cons] at hch
        rcases hch with rfl | hch
        · subst hq; decide
        · exact cadenaBody_take_ne_nl cs m hb ch hch
    next => simp at h

theorem flot_take_ne_nl (s : Str) (n : Nat) (h : flotMatch s = some n) :
    ∀ ch ∈ s.take n, ch ≠ '\n' := by
  simp only [flotMatch] at h
  split at h
  · simp at h
  next hd1 =>
    split at h
    next rest heq =>
      split at h
      · simp at h
      next hd2 =>
        simp only [Option.some.injEq] at h
        subst h
        intro ch hch
        rw [show runLen isDigitChar s + 1 + runLen isDigitChar rest
              = runLen isDigitChar s + (runLen isDigitChar rest + 1) from by omega,
          List.take_add] at hch
        rcases List.mem_append.mp hch with hch | hch
        · intro heq2
          have := runLen_take_prop isDigitChar s ch hch
          subst heq2
          exact absurd this (by decide)
        · rw [heq] at hch
          simp only [List.take_succ_cons, List.mem_cons] at hch
          rcases hch with rfl | hch
          · decide
          · intro heq2
            have := runLen_take_prop isDigitChar rest ch hch
            subst heq2
            exact absurd this (by decide)
    next => simp at h

theorem op_take_ne_nl (s : Str) (n : Nat) (h : opMatch s = some n) :
    ∀ ch ∈ s.take n, ch ≠ '\n' := by
  match s with
  | [] => simp [opMatch] at h
  | [c] =>
    simp only [opMatch] at h
    split at h
    next hc =>
      simp only [Option.some.injEq] at h
      subst h
      intro ch hch
      simp only [List.take_succ_cons, List.take_zero, List.mem_singleton] at hch
      subst hch
      fin_cases hc <;> decide
    next => simp at h
  | c :: d :: cs =>
    simp only [opMatch] at h
    split at h
    next hmul =>
      simp only [Option.some.injEq] at h
      subst h
      intro ch hch
      simp only [List.take_succ_cons, List.take_zero, List.mem_cons, List.not_mem_nil,
        or_false] at hch
      simp only [isMultiOp, decide_eq_true_eq] at hmul
      rcases hch with rfl | rfl
      · rcases hmul with ⟨rfl, _⟩ | ⟨rfl, _⟩ | ⟨hc, _⟩
        · decide
        · decide
        · rcases hc with rfl|rfl|rfl|rfl|rfl|rfl|rfl|rfl|rfl <;> decide
      · rcases hmul with ⟨_, rfl⟩ | ⟨_, rfl⟩ | ⟨_, rfl⟩ <;> decide
    next =>
      split at h
      next hc =>
        simp only [Option.some.injEq] at h
        subst h
        intro ch hch
        simp only [List.take_succ_cons, List.take_zero, List.mem_singleton] at hch
        subst hch
        fin_cases hc <;> decide
      next => simp at h

theorem simb_take_ne_nl (s : Str) (n : Nat) (h : simbMatch s = some n) :
    ∀ ch ∈ s.take n, ch ≠ '\n' := by
  match s with
  | [] => simp [simbMatch] at h
  | c :: cs =>
    simp only [simbMatch] at h
    split at h
    next hc =>
      simp only [Option.some.injEq] at h
      subst h
      intro ch hch
      simp only [List.take_succ_cons, List.take_zero, List.mem_singleton] at hch
      subst hch
      fin_cases hc <;> decide
    next => simp at h

theorem ident_take_ne_nl (s : Str) (n : Nat) (h : identMatch s = some n) :
    ∀ ch ∈ s.take n, ch ≠ '\n' := by
  match s with
  | [] => simp [identMatch] at h
  | c :: cs =>
    simp only [identMatch] at h
    split at h
    next hc =>
      simp only [Option.some.injEq] at h
      subst h
      intro ch hch
      simp only [List.take_succ_cons, List.mem_cons] at hch
      rcases hch with rfl | hch
      · intro heq
        subst heq
        exact absurd hc (by decide)
      · intro heq
        have := runLen_take_prop isIdentCont cs ch hch
        subst heq
        exact absurd this (by decide)
    next => simp at h

/-- A match of any rule other than NL and the comments contains no newline. -/
theorem mat_take_countNl (s : Str) (c : Cat) (n : Nat) (h : masterMatch s = some (c, n))
    (h1 : c ≠ Cat.nl) (h2 : c ≠ Cat.bloq) (h3 : c ≠ Cat.linea) :
    countNl (s.take n) = 0 := by
  rcases masterMatch_some_elim s c n h with
    ⟨rfl, hm⟩ | ⟨rfl, hm⟩ | ⟨rfl, hm⟩ | ⟨rfl, hm⟩ | ⟨rfl, hm⟩ |
    ⟨rfl, hm⟩ | ⟨rfl, hm⟩ | ⟨rfl, hm⟩ | ⟨rfl, hm⟩ | ⟨rfl, hm⟩
  · exact absurd rfl h2
  · exact absurd rfl h3
  · exact countNl_eq_zero _ (espacio_take_ne_nl s n hm)
  · exact absurd rfl h1
  · exact countNl_eq_zero _ (cadena_take_ne_nl s n hm)
  · exact countNl_eq_zero _ (flot_take_ne_nl s n hm)
  · exact countNl_eq_zero _ (ent_take_ne_nl s n hm)
  · exact countNl_eq_zero _ (op_take_ne_nl s n hm)
  · exact countNl_eq_zero _ (simb_take_ne_nl s n hm)
  · exact countNl_eq_zero _ (ident_take_ne_nl s n hm)

/-- Every match segment of the scan comes from a MASTER_RE match. -/
theorem scanAux_mat_src : ∀ (f : Nat) (s : Str) (c : Cat) (lex : Str),
    Raw.mat c lex ∈ scanAux f s →
    ∃ s2 n, masterMatch s2 = some (c, n) ∧ lex = s2.take n := by
  intro f
  induction f with
  | zero => intro s c lex h; simp [scanAux] at h
  | succ f ih =>
    intro s c lex h
    match s with
    | [] => simp [scanAux] at h
    | ch :: rest =>
      simp only [scanAux] at h
      cases hm : masterMatch (ch :: rest) with
      | none =>
        rw [hm] at h
        simp only [List.mem_cons] at h
        rcases h with h | h
        · exact absurd h (by simp)
        · exact ih rest c lex h
      | some cn =>
        obtain ⟨c1, n⟩ := cn
        rw [hm] at h
        simp only [List.mem_cons] at h
        rcases h with h | h
        · simp only [Raw.mat.injEq] at h
          exact ⟨ch :: rest, n, h.1 ▸ hm, h.2⟩
        · exact ih _ c lex h

/-- MASTER_RE always matches at a newline: the NL rule fires there. -/
theorem masterMatch_at_nl (r : Str) :
    masterMatch ('\n' :: r) = some (Cat.nl, nlRun r + 1) := by
  have hb : bloqMatch ('\n' :: r) = none := by cases r <;> simp [bloqMatch]
  have hl : lineaMatch ('\n' :: r) = none := by cases r <;> simp [lineaMatch]
  have he : espacioMatch ('\n' :: r) = none := by
    have h : isEspacioChar '\n' = false := by decide
    simp [espacioMatch, runLen, h]
  have hnl : nlMatch ('\n' :: r) = some (nlRun r + 1) := by
    have h : nlRun ('\n' :: r) = nlRun r + 1 := by
      rw [nlRun.eq_def]
      simp
    simp [nlMatch, h]
  unfold masterMatch
  rw [hb, hl, he, hnl]

/-- Skipped characters are never newlines: the NL rule would have matched. -/
theorem scanAux_bad_ne_nl : ∀ (f : Nat) (s : Str) (ch : Char),
    Raw.bad ch ∈ scanAux f s → ch ≠ '\n' := by
  intro f
  induction f with
  | zero => intro s ch h; simp [scanAux] at h
  | succ f ih =>
    intro s ch h
    match s with
    | [] => simp [scanAux] at h
    | c0 :: rest =>
      simp only [scanAux] at h
      cases hm : masterMatch (c0 :: rest) with
      | none =>
        rw [hm] at h
        simp only [List.mem_cons] at h
        rcases h with h | h
        · simp only [Raw.bad.injEq] at h
          subst h
          intro heq
          subst heq
          rw [masterMatch_at_nl rest] at hm
          exact absurd hm (by simp)
        · exact ih rest ch h
      | some cn =>
        rw [hm] at h
        simp only [List.mem_cons] at h
        rcases h with h | h
        · exact absurd h (by simp)
        · exact ih _ ch h

end Explorador

namespace Explorador

/-- Modelled from the spec: the true 1-based row of an offset, 1 plus the
number of line-terminator characters strictly before it. -/
def rowAt (texto : Str) (off : Nat) : Nat := 1 + countNl (texto.take off)

/-- Modelled from the spec: a reference tokenizer identical to runSegs except
that every row attribute (and the row of an error) is computed directly as
rowAt, the true 1-based line number of the current offset, instead of the
incrementally threaded line counter of the source.  Used only to compare the
code against the spec sentence that rows are 1-based line numbers. -/
def specRunSegs (conNL tol : Bool) (texto : Str) :
    List Seg → Nat → Nat → Except PyError (List Token)
  | [], _, _ => .ok []
  | Seg.gap g :: rest, pos, lineaIni =>
    if consumeDesconocido g then
      specRunSegs conNL tol texto rest (pos + g.length) lineaIni
    else
      match rest with
      | [] =>
        if tol then
          .ok [⟨g, "ERROR",
            [("fila", AttrVal.nat (rowAt texto pos)),
             ("columna", AttrVal.nat (pos - lineaIni + 1)),
             ("motivo", AttrVal.str ("desconocido".toList))]⟩]
        else .error (PyError.exploradorError true (rowAt texto pos) (pos - lineaIni + 1)
          (escapeNl (g.take 20)))
      | _ :: _ =>
        if tol then .error PyError.typeError
        else .error (PyError.exploradorError false (rowAt texto pos) (pos - lineaIni + 1)
          (escapeNl (g.take 20)))
  | Seg.mat c lex :: rest, pos, lineaIni =>
    match c with
    | Cat.nl =>
      let tail := specRunSegs conNL tol texto rest (pos + lex.length)
        (match lastNlIdx lex with
         | some k => pos + k + 1
         | none => lineaIni)
      if conNL then
        tail.map (fun ts => ⟨lex, "NL",
          [("fila", AttrVal.nat (rowAt texto pos)),
           ("columna", AttrVal.nat (pos - lineaIni + 1))]⟩ :: ts)
      else tail
    | Cat.espacio => specRunSegs conNL tol texto rest (pos + lex.length) lineaIni
    | Cat.linea => specRunSegs conNL tol texto rest (pos + lex.length) lineaIni
    | Cat.bloq => specRunSegs conNL tol texto rest (pos + lex.length) lineaIni
    | _ =>
      (specRunSegs conNL tol texto rest (pos + lex.length) lineaIni).map
        (fun ts => ⟨lex, (clasificar c lex).1,
          (clasificar c lex).2 ++
            [("fila", AttrVal.nat (rowAt texto pos)),
             ("columna", AttrVal.nat (pos - lineaIni + 1))]⟩ :: ts)

/-- Modelled from the spec: tokenizar with rows computed as true line
numbers. -/
def specTokenizar (conNL tol : Bool) (texto : Str) : Except PyError (List Token) :=
  specRunSegs conNL tol texto (coalesce (scan texto)) 0 0

theorem take_exact (a b rest : Str) :
    (a ++ (b ++ rest)).take (a.length + b.length) = a ++ b := by
  rw [List.take_add, List.take_left, List.drop_left, List.take_left]

theorem rowAt_zero (texto : Str) : rowAt texto 0 = 1 := by
  simp [rowAt, countNl]

theorem rowAt_head (done tail0 : Str) :
    rowAt (done ++ tail0) done.length = 1 + countNl done := by
  simp only [rowAt, List.take_left]

theorem rowAt_step (done lex tail0 : Str) :
    rowAt (done ++ (lex ++ tail0)) (done.length + lex.length)
      = rowAt (done ++ (lex ++ tail0)) done.length + countNl lex := by
  simp only [rowAt, take_exact, List.take_left, countNl_append]
  omega

end Explorador

namespace Explorador

/-- The threaded line counter of the source agrees with the true row
computation as long as no processed segment hides a newline from the counter:
starting after any consumed prefix whose newline count the counter reflects,
the run of the source and the reference run produce identical results,
provided every non-NL segment still to be processed is newline-free. -/
theorem runSegs_eq_spec (conNL tol : Bool) (texto : Str) :
    ∀ (segs : List Seg) (done : Str) (li : Nat),
      texto = done ++ segsJoin segs →
      (∀ seg ∈ segs, isNlSeg seg = false → countNl (segLex seg) = 0) →
      runSegs conNL tol segs done.length (rowAt texto done.length) li =
        specRunSegs conNL tol texto segs done.length li := by
  intro segs
  induction segs with
  | nil => intro done li _ _; rfl
  | cons seg0 rest ih =>
    intro done li htile hnl
    have hrest : ∀ seg ∈ rest, isNlSeg seg = false → countNl (segLex seg) = 0 :=
      fun seg hs hns => hnl seg (List.mem_cons_of_mem _ hs) hns
    cases seg0 with
    | gap g =>
      have hteq : texto = done ++ (g ++ segsJoin rest) := by
        rw [htile, segsJoin_cons]; rfl
      have hg0 : countNl g = 0 := hnl (Seg.gap g) (List.mem_cons_self _ _) rfl
      have hstep : rowAt texto ((done ++ g).length) = rowAt texto done.length := by
        rw [hteq, List.length_append, rowAt_step, hg0]
        omega
      have hih := ih (done ++ g) li (by rw [hteq]; simp) hrest
      rw [hstep, List.length_append] at hih
      simp only [runSegs, specRunSegs]
      by_cases hben : consumeDesconocido g = true
      · rw [if_pos hben, if_pos hben]
        exact hih
      · rw [if_neg hben, if_neg hben]
    | mat c lex =>
      have hteq : texto = done ++ (lex ++ segsJoin rest) := by
        rw [htile, segsJoin_cons]; rfl
      cases c with
      | nl =>
        have hstep : rowAt texto ((done ++ lex).length)
            = rowAt texto done.length + countNl lex := by
          rw [hteq, List.length_append]
          exact rowAt_step done lex (segsJoin rest)
        have hih := ih (done ++ lex)
          (match lastNlIdx lex with
           | some k => done.length + k + 1
           | none => li)
          (by rw [hteq]; simp) hrest
        rw [hstep, List.length_append] at hih
        simp only [runSegs, specRunSegs]
        rw [hih]
      | espacio =>
        have hg0 : countNl lex = 0 :=
          hnl (Seg.mat Cat.espacio lex) (List.mem_cons_self _ _) rfl
        have hstep : rowAt texto ((done ++ lex).length) = rowAt texto done.length := by
          rw [hteq, List.length_append, rowAt_step, hg0]
          omega
        have hih := ih (done ++ lex) li (by rw [hteq]; simp) hrest
        rw [hstep, List.length_append] at hih
        simp only [runSegs, specRunSegs]
        exact hih
      | linea =>
        have hg0 : countNl lex = 0 :=
          hnl (Seg.mat Cat.linea lex) (List.mem_cons_self _ _) rfl
        have hstep : rowAt texto ((done ++ lex).length) = rowAt texto done.length := by
          rw [hteq, List.length_append, rowAt_step, hg0]
          omega
        have hih := ih (done ++ lex) li (by rw [hteq]; simp) hrest
        rw [hstep, List.length_append] at hih
        simp only [runSegs, specRunSegs]
        exact hih
      | bloq =>
        have hg0 : countNl lex = 0 :=
          hnl (Seg.mat Cat.bloq lex) (List.mem_cons_self _ _) rfl
        have hstep : rowAt texto ((done ++ lex).length) = rowAt texto done.length := by
          rw [hteq, List.length_append, rowAt_step, hg0]
          omega
        have hih := ih (done ++ lex) li (by rw [hteq]; simp) hrest
        rw [hstep, List.length_append] at hih
        simp only [runSegs, specRunSegs]
        exact hih
      | cadena =>
        have hg0 : countNl lex = 0 :=
          hnl (Seg.mat Cat.cadena lex) (List.mem_cons_self _ _) rfl
        have hstep : rowAt texto ((done ++ lex).length) = rowAt texto done.length := by
          rw [hteq, List.length_append, rowAt_step, hg0]
          omega
        have hih := ih (done ++ lex) li (by rw [hteq]; simp) hrest
        rw [hstep, List.length_append] at hih
        simp only [runSegs, specRunSegs]
        rw [hih]
      | flot =>
        have hg0 : countNl lex = 0 :=
          hnl (Seg.mat Cat.flot lex) (List.mem_cons_self _ _) rfl
        have hstep : rowAt texto ((done ++ lex).length) = rowAt texto done.length := by
          rw [hteq, List.length_append, rowAt_step, hg0]
          omega
        have hih := ih (done ++ lex) li (by rw [hteq]; simp) hrest
        rw [hstep, List.length_append] at hih
        simp only [runSegs, specRunSegs]
        rw [hih]
      | ent =>
        have hg0 : countNl lex = 0 :=
          hnl (Seg.mat Cat.ent lex) (List.mem_cons_self _ _) rfl
        have hstep : rowAt texto ((done ++ lex).length) = rowAt texto done.length := by
          rw [hteq, List.length_append, rowAt_step, hg0]
          omega
        have hih := ih (done ++ lex) li (by rw [hteq]; simp) hrest
        rw [hstep, List.length_append] at hih
        simp only [runSegs, specRunSegs]
        rw [hih]
      | op =>
        have hg0 : countNl lex = 0 :=
          hnl (Seg.mat Cat.op lex) (List.mem_cons_self _ _) rfl
        have hstep : rowAt texto ((done ++ lex).length) = rowAt texto done.length := by
          rw [hteq, List.length_append, rowAt_step, hg0]
          omega
        have hih := ih (done ++ lex) li (by rw [hteq]; simp) hrest
        rw [hstep, List.length_append] at hih
        simp only [runSegs, specRunSegs]
        rw [hih]
      | simb =>
        have hg0 : countNl lex = 0 :=
          hnl (Seg.mat Cat.simb lex) (List.mem_cons_self _ _) rfl
        have hstep : rowAt texto ((done ++ lex).length) = rowAt texto done.length := by
          rw [hteq, List.length_append, rowAt_step, hg0]
          omega
        have hih := ih (done ++ lex) li (by rw [hteq]; simp) hrest
        rw [hstep, List.length_append] at hih
        simp only [runSegs, specRunSegs]
        rw [hih]
      | ident =>
        have hg0 : countNl lex = 0 :=
          hnl (Seg.mat Cat.ident lex) (List.mem_cons_self _ _) rfl
        have hstep : rowAt texto ((done ++ lex).length) = rowAt texto done.length := by
          rw [hteq, List.length_append, rowAt_step, hg0]
          omega
        have hih := ih (done ++ lex) li (by rw [hteq]; simp) hrest
        rw [hstep, List.length_append] at hih
        simp only [runSegs, specRunSegs]
        rw [hih]

end Explorador

namespace Explorador

/-- Claim C3 (amended): the row counter advances exactly on NL
(line-terminator run) matches, by the number of newlines in the run.
Consequently, whenever no comment match swallows a newline, the code agrees
with the reference tokenizer whose row attributes are computed directly as
the true 1-based line number (1 plus the number of line-terminator characters
strictly before the offset); newlines consumed inside comment matches are the
one exception, and then the reported row undercounts. -/
theorem c3_rows (conNL tol : Bool) (texto : Str)
    (hcm : ∀ seg ∈ coalesce (scan texto), isCommentSeg seg = true →
      countNl (segLex seg) = 0) :
    tokenizar conNL tol texto = specTokenizar conNL tol texto := by
  have hnl : ∀ seg ∈ coalesce (scan texto), isNlSeg seg = false →
      countNl (segLex seg) = 0 := by
    intro seg hs hns
    rcases coalesce_mem _ _ hs with ⟨g, rfl, hg, hall⟩ | ⟨c, lex, rfl, hmem⟩
    · exact countNl_eq_zero g (fun ch hch => scanAux_bad_ne_nl _ _ ch (hall ch hch))
    · cases c with
      | nl => simp [isNlSeg] at hns
      | bloq => exact hcm _ hs rfl
      | linea => exact hcm _ hs rfl
      | espacio =>
        obtain ⟨s2, n, hm2, hlex⟩ := scanAux_mat_src _ _ _ _ hmem
        simp only [segLex]
        rw [hlex]
        exact mat_take_countNl s2 _ n hm2 (by decide) (by decide) (by decide)
      | cadena =>
        obtain ⟨s2, n, hm2, hlex⟩ := scanAux_mat_src _ _ _ _ hmem
        simp only [segLex]
        rw [hlex]
        exact mat_take_countNl s2 _ n hm2 (by decide) (by decide) (by decide)
      | flot =>
        obtain ⟨s2, n, hm2, hlex⟩ := scanAux_mat_src _ _ _ _ hmem
        simp only [segLex]
        rw [hlex]
        exact mat_take_countNl s2 _ n hm2 (by decide) (by decide) (by decide)
      | ent =>
        obtain ⟨s2, n, hm2, hlex⟩ := scanAux_mat_src _ _ _ _ hmem
        simp only [segLex]
        rw [hlex]
        exact mat_take_countNl s2 _ n hm2 (by decide) (by decide) (by decide)
      | op =>
        obtain ⟨s2, n, hm2, hlex⟩ := scanAux_mat_src _ _ _ _ hmem
        simp only [segLex]
        rw [hlex]
        exact mat_take_countNl s2 _ n hm2 (by decide) (by decide) (by decide)
      | simb =>
        obtain ⟨s2, n, hm2, hlex⟩ := scanAux_mat_src _ _ _ _ hmem
        simp only [segLex]
        rw [hlex]
        exact mat_take_countNl s2 _ n hm2 (by decide) (by decide) (by decide)
      | ident =>
        obtain ⟨s2, n, hm2, hlex⟩ := scanAux_mat_src _ _ _ _ hmem
        simp only [segLex]
        rw [hlex]
        exact mat_take_countNl s2 _ n hm2 (by decide) (by decide) (by decide)
  have h := runSegs_eq_spec conNL tol texto (coalesce (scan texto)) [] 0
    (by simp [segsJoin_scan]) hnl
  simpa only [tokenizar, specTokenizar, List.length_nil, rowAt_zero] using h

/-- Witness for claim C3 at the concrete input a-newline-b. -/
theorem c3_rows_witness :
    (∀ seg ∈ coalesce (scan ("a\nb".toList)), isCommentSeg seg = true →
      countNl (segLex seg) = 0) ∧
    tokenizar true false ("a\nb".toList) = specTokenizar true false ("a\nb".toList) :=
  ⟨by decide, c3_rows true false ("a\nb".toList) (by decide)⟩

/-- Counterexample to claim C3 as stated: in the input
slash-slash-c-newline-x the line comment consumes the newline yet the line
counter only advances on NL matches, so the IDENT token x starting at offset
4 carries row 1 although the true 1-based line number of its first character
(1 plus the line terminators before offset 4) is 2. -/
theorem c3_counterexample :
    tokenizar false false ("//c\nx".toList) = .ok
      [⟨"x".toList, "IDENT", [("fila", AttrVal.nat 1), ("columna", AttrVal.nat 5)]⟩] ∧
    rowAt ("//c\nx".toList) 4 = 2 :=
  ⟨by rfl, by rfl⟩

end Explorador

namespace Explorador

/-! Characterization of the block-comment rule.  The emulated non-greedy body
(?:[^*]|\*[^/])* segments the text into single non-star characters and pairs
of a star with a following non-slash character; it can therefore stop exactly
at an occurrence of star-slash whose star is reachable by that segmentation,
which happens precisely when the run of consecutive stars ending at that star
has odd length. -/

/-- Number of consecutive stars at the end of a string. -/
def trailingStars (l : Str) : Nat := runLen (fun c => decide (c = '*')) l.reverse

/-- Position q of the body closes the comment: the two characters at offset q
are star-slash, and the star run ending at q (within the first q+1 body
characters) has odd length, so the body segmentation reaches q exactly. -/
def closesAt (cs : Str) (q : Nat) : Bool :=
  decide ((cs.drop q).take 2 = ['*', '/']) &&
    decide (trailingStars (cs.take (q + 1)) % 2 = 1)

theorem trailingStars_le (l : Str) : trailingStars l ≤ l.length := by
  have := runLen_le (fun c => decide (c = '*')) l.reverse
  simpa [trailingStars] using this

theorem runLen_append (p : Char → Bool) : ∀ u v : Str,
    runLen p (u ++ v) =
      if runLen p u = u.length then u.length + runLen p v else runLen p u := by
  intro u v
  induction u with
  | nil => simp [runLen]
  | cons c u ih =>
    show runLen p (c :: (u ++ v)) = _
    by_cases hp : p c = true
    · simp only [runLen, List.length_cons, hp, if_true]
      rw [ih]
      by_cases hr : runLen p u = u.length
      · rw [if_pos hr, if_pos (by omega)]
        omega
      · rw [if_neg hr, if_neg (by omega)]
    · have hp2 : p c = false := by
        cases hpc : p c
        · rfl
        · exact absurd hpc hp
      simp only [runLen, List.length_cons, hp2, Bool.false_eq_true, if_false]
      rw [if_neg (by omega)]

theorem trailingStars_cons (a : Char) (l : Str) :
    trailingStars (a :: l) =
      if trailingStars l = l.length then
        l.length + (if a = '*' then 1 else 0)
      else trailingStars l := by
  show runLen _ ((a :: l).reverse) = _
  rw [List.reverse_cons, runLen_append]
  simp only [trailingStars, List.length_reverse]
  by_cases hr : runLen (fun c => decide (c = '*')) l.reverse = l.length
  · rw [if_pos hr, if_pos hr]
    simp only [runLen]
    by_cases ha : a = '*'
    · rw [if_pos (by simp [ha]), if_pos ha]
    · rw [if_neg (by simp [ha]), if_neg ha]
  · rw [if_neg hr, if_neg hr]

theorem trailingStars_par2 (d : Char) (l : Str) :
    trailingStars ('*' :: d :: l) % 2 = trailingStars l % 2 := by
  have hle := trailingStars_le l
  have h1 := trailingStars_cons d l
  have h2 : trailingStars ('*' :: d :: l) =
      if trailingStars (d :: l) = l.length + 1 then l.length + 2
      else trailingStars (d :: l) := by
    rw [trailingStars_cons]
    simp
  by_cases hr : trailingStars l = l.length
  · by_cases hd : d = '*'
    · rw [if_pos hr, if_pos hd] at h1
      rw [h1] at h2
      rw [if_pos rfl] at h2
      omega
    · rw [if_pos hr, if_neg hd] at h1
      rw [h1] at h2
      rw [if_neg (by omega)] at h2
      omega
  · rw [if_neg hr] at h1
    rw [h1] at h2
    have hlt : trailingStars l < l.length := lt_of_le_of_ne hle hr
    rw [if_neg (by omega)] at h2
    omega

theorem trailingStars_cons_ne (c : Char) (l : Str) (hc : c ≠ '*') :
    trailingStars (c :: l) = trailingStars l := by
  rw [trailingStars_cons]
  by_cases hr : trailingStars l = l.length
  · rw [if_pos hr, if_neg hc, hr]
    omega
  · rw [if_neg hr]

theorem closesAt_nil (q : Nat) : closesAt [] q = false := by
  simp [closesAt]

theorem closesAt_cons_ne (c : Char) (cs : Str) (q : Nat) (hc : c ≠ '*') :
    closesAt (c :: cs) (q + 1) = closesAt cs q := by
  simp only [closesAt, List.drop_succ_cons, List.take_succ_cons,
    trailingStars_cons_ne c _ hc]

theorem closesAt_cons2 (d : Char) (cs : Str) (q : Nat) :
    closesAt ('*' :: d :: cs) (q + 2) = closesAt cs q := by
  simp only [closesAt]
  rw [show q + 2 = (q + 1) + 1 from rfl, List.drop_succ_cons, List.drop_succ_cons]
  congr 1
  rw [show q + 1 + 1 + 1 = (q + 1) + 1 + 1 from rfl, List.take_succ_cons,
    List.take_succ_cons]
  exact decide_eq_decide.mpr (by rw [trailingStars_par2])

theorem closesAt_zero_ne (c : Char) (cs : Str) (hc : c ≠ '*') :
    closesAt (c :: cs) 0 = false := by
  simp only [closesAt, List.drop_zero]
  have hfalse : decide ((c :: cs).take 2 = ['*', '/']) = false := by
    apply decide_eq_false
    intro h
    cases cs with
    | nil => simp at h
    | cons d cs2 =>
      simp only [List.take_succ_cons, List.take_zero, List.cons.injEq] at h
      exact hc h.1
  rw [hfalse, Bool.false_and]

theorem closesAt_zero_star (d : Char) (cs : Str) (hd : d ≠ '/') :
    closesAt ('*' :: d :: cs) 0 = false := by
  simp only [closesAt, List.drop_zero, List.take_succ_cons, List.take_zero]
  have hfalse : decide ((['*', d] : Str) = ['*', '/']) = false := by
    apply decide_eq_false
    intro h
    simp only [List.cons.injEq] at h
    exact hd h.2.1
  rw [hfalse, Bool.false_and]

theorem closesAt_one_star (d : Char) (cs : Str) :
    closesAt ('*' :: d :: cs) 1 = false := by
  by_cases hd : d = '*'
  · subst hd
    simp only [closesAt, List.drop_succ_cons, List.drop_zero]
    have hfalse : decide (trailingStars (('*' :: '*' :: cs).take (1 + 1)) % 2 = 1)
        = false := by
      apply decide_eq_false
      simp only [List.take_succ_cons, List.take_zero]
      decide
    rw [hfalse, Bool.and_false]
  · simp only [closesAt, List.drop_succ_cons, List.drop_zero]
    have hfalse : decide ((d :: cs).take 2 = ['*', '/']) = false := by
      apply decide_eq_false
      intro h
      cases cs with
      | nil => simp at h
      | cons e cs2 =>
        simp only [List.take_succ_cons, List.take_zero, List.cons.injEq] at h
        exact hd h.1
    rw [hfalse, Bool.false_and]

/-- Full characterization of the body scan: it succeeds exactly when some
position closes the comment, and then it stops at the first such position. -/
theorem bloqBody_iff : ∀ (L : Nat) (cs : Str), cs.length ≤ L → ∀ m : Nat,
    (bloqBody cs = some m ↔
      ∃ q, closesAt cs q = true ∧ (∀ q2 < q, closesAt cs q2 = false) ∧ m = q + 2) := by
  intro L
  induction L with
  | zero =>
    intro cs hlen m
    have : cs = [] := List.length_eq_zero.mp (Nat.le_zero.mp hlen)
    subst this
    constructor
    · intro h; simp [bloqBody] at h
    · rintro ⟨q, hq, -, -⟩
      rw [closesAt_nil] at hq
      simp at hq
  | succ L ihL =>
    intro cs hlen m
    match cs with
    | [] =>
      constructor
      · intro h; simp [bloqBody] at h
      · rintro ⟨q, hq, -, -⟩
        rw [closesAt_nil] at hq
        simp at hq
    | c :: cs1 =>
      by_cases hc : c = '*'
      · subst hc
        match cs1 with
        | [] =>
          constructor
          · intro h; simp [bloqBody] at h
          · rintro ⟨q, hq, -, -⟩
            have : closesAt ['*'] q = false := by
              cases q with
              | zero => decide
              | succ q2 => simp [closesAt]
            rw [this] at hq
            simp at hq
        | d :: cs2 =>
          by_cases hd : d = '/'
          · subst hd
            have hred : bloqBody ('*' :: '/' :: cs2) = some 2 := rfl
            rw [hred]
            constructor
            · intro h
              simp only [Option.some.injEq] at h
              refine ⟨0, ?_, by omega, by omega⟩
              simp only [closesAt, List.drop_zero, List.take_succ_cons, List.take_zero]
              rfl
            · rintro ⟨q, hq, hmin, rfl⟩
              cases q with
              | zero => rfl
              | succ q2 =>
                have h0 : closesAt ('*' :: '/' :: cs2) 0 = true := by
                  simp only [closesAt, List.drop_zero, List.take_succ_cons, List.take_zero]
                  rfl
                rw [hmin 0 (by omega)] at h0
                simp at h0
          · have hred : bloqBody ('*' :: d :: cs2) = (bloqBody cs2).map (· + 2) := by
              simp [bloqBody, hd]
            rw [hred]
            have hih := ihL cs2 (by simp only [List.length_cons] at hlen; omega)
            constructor
            · intro h
              rw [Option.map_eq_some'] at h
              obtain ⟨m2, hm2, rfl⟩ := h
              obtain ⟨q, hq, hmin, rfl⟩ := (hih m2).mp hm2
              refine ⟨q + 2, ?_, ?_, by omega⟩
              · rw [closesAt_cons2]
                exact hq
              · intro q2 hq2
                match q2 with
                | 0 => exact closesAt_zero_star d cs2 hd
                | 1 => exact closesAt_one_star d cs2
                | q3 + 2 =>
                  rw [closesAt_cons2]
                  exact hmin q3 (by omega)
            · rintro ⟨Q, hQ, hminQ, rfl⟩
              match Q, hQ with
              | 0, hQ =>
                rw [closesAt_zero_star d cs2 hd] at hQ
                simp at hQ
              | 1, hQ =>
                rw [closesAt_one_star d cs2] at hQ
                simp at hQ
              | q + 2, hQ =>
                rw [closesAt_cons2] at hQ
                have hmin2 : ∀ q2 < q, closesAt cs2 q2 = false := by
                  intro q2 hq2
                  have := hminQ (q2 + 2) (by omega)
                  rw [closesAt_cons2] at this
                  exact this
                have := (hih (q + 2)).mpr ⟨q, hQ, hmin2, rfl⟩
                rw [this]
                simp only [Option.map_some', Option.some.injEq]
      · have hred : bloqBody (c :: cs1) = (bloqBody cs1).map (· + 1) := by
          cases cs1 with
          | nil => simp [bloqBody, hc]
          | cons d cs2 => simp [bloqBody, hc]
        rw [hred]
        have hih := ihL cs1 (by simp only [List.length_cons] at hlen; omega)
        constructor
        · intro h
          rw [Option.map_eq_some'] at h
          obtain ⟨m2, hm2, rfl⟩ := h
          obtain ⟨q, hq, hmin, rfl⟩ := (hih m2).mp hm2
          refine ⟨q + 1, ?_, ?_, by omega⟩
          · rw [closesAt_cons_ne c cs1 q hc]
            exact hq
          · intro q2 hq2
            match q2 with
            | 0 => exact closesAt_zero_ne c cs1 hc
            | q3 + 1 =>
              rw [closesAt_cons_ne c cs1 q3 hc]
              exact hmin q3 (by omega)
        · rintro ⟨Q, hQ, hminQ, rfl⟩
          match Q, hQ with
          | 0, hQ =>
            rw [closesAt_zero_ne c cs1 hc] at hQ
            simp at hQ
          | q + 1, hQ =>
            rw [closesAt_cons_ne c cs1 q hc] at hQ
            have hmin2 : ∀ q2 < q, closesAt cs1 q2 = false := by
              intro q2 hq2
              have := hminQ (q2 + 1) (by omega)
              rw [closesAt_cons_ne c cs1 q2 hc] at this
              exact this
            have := (hih (q + 2)).mpr ⟨q, hQ, hmin2, rfl⟩
            rw [this]
            simp only [Option.map_some', Option.some.injEq]

end Explorador

namespace Explorador

/-- Claim C5 (amended): at a block-comment opener the rule matches exactly
when the body segmentation (one non-star character, or a star paired with a
following non-slash character) reaches a star-slash — equivalently, when some
occurrence of star-slash in the body is preceded by an odd-length run of
stars — and the match then ends at the first such occurrence.  An occurrence
of star-slash preceded by an even run of stars is passed over, and when no
reachable occurrence exists the rule does not match at all, even though a
star-slash occurs later in the input. -/
theorem c5_block_comment (s cs : Str) (n : Nat) (hs : s = '/' :: '*' :: cs) :
    bloqMatch s = some n ↔
      ∃ q, closesAt cs q = true ∧ (∀ q2 < q, closesAt cs q2 = false) ∧ n = q + 4 := by
  subst hs
  have hred : bloqMatch ('/' :: '*' :: cs) = (bloqBody cs).map (· + 2) := by
    simp [bloqMatch]
  rw [hred]
  constructor
  · intro h
    rw [Option.map_eq_some'] at h
    obtain ⟨m, hm, rfl⟩ := h
    obtain ⟨q, hq, hmin, rfl⟩ := (bloqBody_iff cs.length cs (le_refl _) m).mp hm
    exact ⟨q, hq, hmin, by omega⟩
  · rintro ⟨q, hq, hmin, rfl⟩
    have hb : bloqBody cs = some (q + 2) :=
      (bloqBody_iff cs.length cs (le_refl _) (q + 2)).mpr ⟨q, hq, hmin, rfl⟩
    rw [hb]
    simp only [Option.map_some', Option.some.injEq]

/-- Witness for claim C5 at the concrete comment slash-star-a-star-slash. -/
theorem c5_block_comment_witness :
    ("/*a*/".toList = '/' :: '*' :: "a*/".toList) ∧
    (bloqMatch ("/*a*/".toList) = some 5 ↔
      ∃ q, closesAt ("a*/".toList) q = true ∧
        (∀ q2 < q, closesAt ("a*/".toList) q2 = false) ∧ 5 = q + 4) :=
  ⟨rfl, c5_block_comment ("/*a*/".toList) ("a*/".toList) 5 rfl⟩

/-- Counterexample to claim C5 as stated: in the input
slash-star-star-star-slash the scanner's cursor at offset 0 sits at a
block-comment opener that is followed later in the input by the closing
star-slash (its two characters are at offsets 3 and 4), yet the
block-comment rule does not match at all — the regex body cannot end just
before a star-slash whose star run has even length — and the input instead
tokenizes as five OPERADOR tokens. -/
theorem c5_counterexample :
    (("/***/".toList).drop 3).take 2 = ['*', '/'] ∧
    bloqMatch ("/***/".toList) = none ∧
    tokenizar false false ("/***/".toList) = .ok
      [⟨['/'], "OPERADOR", [("fila", AttrVal.nat 1), ("columna", AttrVal.nat 1)]⟩,
       ⟨['*'], "OPERADOR", [("fila", AttrVal.nat 1), ("columna", AttrVal.nat 2)]⟩,
       ⟨['*'], "OPERADOR", [("fila", AttrVal.nat 1), ("columna", AttrVal.nat 3)]⟩,
       ⟨['*'], "OPERADOR", [("fila", AttrVal.nat 1), ("columna", AttrVal.nat 4)]⟩,
       ⟨['/'], "OPERADOR", [("fila", AttrVal.nat 1), ("columna", AttrVal.nat 5)]⟩] :=
  ⟨by rfl, by rfl, by rfl⟩

end Explorador
